import Mathlib

/-!
Verification of the Stellar CLI transaction-builder (`src/build-transaction.ts`
and the shape-inference variant in `src/unnamed/part_000`).

The TypeScript code manipulates JavaScript numbers (IEEE-754 binary64).  We
embed those numbers as exact rationals together with an explicit
round-to-nearest-even rounding function, so every arithmetic step of the
source (`parseFloat`, `parseInt`, `+ 1`, `toFixed(7)`, comparisons) is
modelled with its real double-precision semantics.  `NaN` and the infinities
are modelled by a dedicated sum type `JsNum`.
-/

namespace StellarCLI

/-- A JavaScript number: NaN, ±Infinity, or a finite value.  Finite values are
carried as exact rationals; every finite value produced by the model goes
through `roundDouble`, so it is always an actually representable binary64
value.  The two IEEE zeros are identified (the source only ever compares
amounts with `<=`/`<`, for which `-0` and `0` agree). -/
inductive JsNum where
  | nan : JsNum
  | posInf : JsNum
  | negInf : JsNum
  | fin (q : ℚ) : JsNum
deriving DecidableEq

/-- `2^e` as a rational, for an integer (possibly negative) exponent. -/
def zpow2 (e : ℤ) : ℚ := (2 : ℚ) ^ e

theorem zpow2_pos (e : ℤ) : 0 < zpow2 e := zpow_pos (by norm_num) e

theorem zpow2_ne_zero (e : ℤ) : zpow2 e ≠ 0 := ne_of_gt (zpow2_pos e)

theorem zpow2_add (i j : ℤ) : zpow2 (i + j) = zpow2 i * zpow2 j :=
  zpow_add₀ (by norm_num) i j

theorem zpow2_le_zpow2 {i j : ℤ} (h : i ≤ j) : zpow2 i ≤ zpow2 j :=
  zpow_le_zpow_right₀ (by norm_num) h

theorem zpow2_lt_zpow2 {i j : ℤ} (h : i < j) : zpow2 i < zpow2 j :=
  zpow_lt_zpow_right₀ (by norm_num) h

theorem zpow2_natCast (n : ℕ) : zpow2 (n : ℤ) = ((2 ^ n : ℕ) : ℚ) := by
  rw [zpow2, zpow_natCast]; push_cast; ring

/-- Round a rational to the nearest integer, ties to even. -/
def rne (u : ℚ) : ℤ :=
  if u - ⌊u⌋ < 1 / 2 then ⌊u⌋
  else if 1 / 2 < u - ⌊u⌋ then ⌊u⌋ + 1
  else if ⌊u⌋ % 2 = 0 then ⌊u⌋ else ⌊u⌋ + 1

theorem rne_cases (u : ℚ) : rne u = ⌊u⌋ ∨ rne u = ⌊u⌋ + 1 := by
  unfold rne; split_ifs <;> simp

/-- `rne` really is a nearest integer: it is at least as close to `u` as any
other integer. -/
theorem rne_nearest (u : ℚ) (k : ℤ) : |(rne u : ℚ) - u| ≤ |(k : ℚ) - u| := by
  have hfl : (⌊u⌋ : ℚ) ≤ u := Int.floor_le u
  have hfl2 : u < (⌊u⌋ : ℚ) + 1 := Int.lt_floor_add_one u
  rcases le_or_lt k ⌊u⌋ with hk | hk
  · have hk' : (k : ℚ) ≤ (⌊u⌋ : ℚ) := by exact_mod_cast hk
    have habs : |(k : ℚ) - u| = u - k := by
      rw [abs_sub_comm, abs_of_nonneg (by linarith)]
    rw [habs]
    unfold rne; split_ifs with h1 h2 h3
    · rw [abs_sub_comm, abs_of_nonneg (by linarith)]; linarith
    · have : |(((⌊u⌋ : ℤ) + 1 : ℤ) : ℚ) - u| = (⌊u⌋ : ℚ) + 1 - u := by
        rw [abs_of_nonneg (by push_cast; linarith)]; push_cast; ring
      push_cast at this ⊢; rw [this]; linarith
    · rw [abs_sub_comm, abs_of_nonneg (by linarith)]; linarith
    · have h2' : u - (⌊u⌋ : ℚ) = 1 / 2 := by linarith
      have : |(((⌊u⌋ : ℤ) + 1 : ℤ) : ℚ) - u| = (⌊u⌋ : ℚ) + 1 - u := by
        rw [abs_of_nonneg (by push_cast; linarith)]; push_cast; ring
      push_cast at this ⊢; rw [this]; linarith
  · have hk' : (⌊u⌋ : ℚ) + 1 ≤ (k : ℚ) := by exact_mod_cast hk
    have habs : |(k : ℚ) - u| = (k : ℚ) - u := by
      rw [abs_of_nonneg (by linarith)]
    rw [habs]
    unfold rne; split_ifs with h1 h2 h3
    · rw [abs_sub_comm, abs_of_nonneg (by linarith)]; linarith
    · have : |(((⌊u⌋ : ℤ) + 1 : ℤ) : ℚ) - u| = (⌊u⌋ : ℚ) + 1 - u := by
        rw [abs_of_nonneg (by push_cast; linarith)]; push_cast; ring
      push_cast at this ⊢; rw [this]; linarith
    · have h2' : u - (⌊u⌋ : ℚ) = 1 / 2 := by linarith
      rw [abs_sub_comm, abs_of_nonneg (by linarith)]; linarith
    · have h2' : u - (⌊u⌋ : ℚ) = 1 / 2 := by linarith
      have : |(((⌊u⌋ : ℤ) + 1 : ℤ) : ℚ) - u| = (⌊u⌋ : ℚ) + 1 - u := by
        rw [abs_of_nonneg (by push_cast; linarith)]; push_cast; ring
      push_cast at this ⊢; rw [this]; linarith

theorem rne_err (u : ℚ) : |(rne u : ℚ) - u| ≤ 1 / 2 := by
  have h1 := rne_nearest u ⌊u⌋
  have h2 := rne_nearest u (⌊u⌋ + 1)
  have hfl : (⌊u⌋ : ℚ) ≤ u := Int.floor_le u
  have hfl2 : u < (⌊u⌋ : ℚ) + 1 := Int.lt_floor_add_one u
  have e1 : |((⌊u⌋ : ℤ) : ℚ) - u| = u - ⌊u⌋ := by
    rw [abs_sub_comm, abs_of_nonneg (by linarith)]
  have e2 : |(((⌊u⌋ : ℤ) + 1 : ℤ) : ℚ) - u| = (⌊u⌋ : ℚ) + 1 - u := by
    rw [abs_of_nonneg (by push_cast; linarith)]; push_cast; ring
  rw [e1] at h1; rw [e2] at h2; linarith

theorem rne_intCast (k : ℤ) : rne (k : ℚ) = k := by
  have h := rne_nearest (k : ℚ) k
  simp only [sub_self, abs_zero] at h
  have : |(rne (k : ℚ) : ℚ) - k| = 0 := le_antisymm h (abs_nonneg _)
  have : (rne (k : ℚ) : ℚ) = (k : ℚ) := by
    have := abs_eq_zero.mp this; linarith
  exact_mod_cast this

theorem rne_nonneg {u : ℚ} (hu : 0 ≤ u) : 0 ≤ rne u := by
  have h0 : (0 : ℤ) ≤ ⌊u⌋ := Int.floor_nonneg.mpr hu
  rcases rne_cases u with h | h <;> omega

/-- The binary exponent of a positive rational: the unique `e` such that
`2^e ≤ q < 2^(e+1)` (proved in `qlog2_spec`). -/
def qlog2 (q : ℚ) : ℤ :=
  if q < zpow2 ((Nat.log 2 q.num.toNat : ℤ) - (Nat.log 2 q.den : ℤ))
  then (Nat.log 2 q.num.toNat : ℤ) - (Nat.log 2 q.den : ℤ) - 1
  else (Nat.log 2 q.num.toNat : ℤ) - (Nat.log 2 q.den : ℤ)

theorem qlog2_spec {q : ℚ} (hq : 0 < q) :
    zpow2 (qlog2 q) ≤ q ∧ q < zpow2 (qlog2 q + 1) := by
  have hnum : 0 < q.num := Rat.num_pos.mpr hq
  have ha0 : q.num.toNat ≠ 0 := by omega
  have hb0 : q.den ≠ 0 := q.den_nz
  have hA : ((2 ^ Nat.log 2 q.num.toNat : ℕ) : ℚ) ≤ (q.num.toNat : ℚ) := by
    exact_mod_cast Nat.pow_log_le_self 2 ha0
  have hA2 : (q.num.toNat : ℚ) < ((2 ^ (Nat.log 2 q.num.toNat + 1) : ℕ) : ℚ) := by
    exact_mod_cast Nat.lt_pow_succ_log_self (by norm_num) q.num.toNat
  have hB : ((2 ^ Nat.log 2 q.den : ℕ) : ℚ) ≤ (q.den : ℚ) := by
    exact_mod_cast Nat.pow_log_le_self 2 hb0
  have hB2 : (q.den : ℚ) < ((2 ^ (Nat.log 2 q.den + 1) : ℕ) : ℚ) := by
    exact_mod_cast Nat.lt_pow_succ_log_self (by norm_num) q.den
  have hdenpos : (0 : ℚ) < (q.den : ℚ) := by exact_mod_cast q.pos
  have hnumeq : ((q.num.toNat : ℤ) : ℚ) = (q.num : ℚ) := by
    exact_mod_cast congrArg (fun z : ℤ => (z : ℚ)) (Int.toNat_of_nonneg (le_of_lt hnum))
  have hqeq : q = (q.num.toNat : ℚ) / (q.den : ℚ) := by
    push_cast at hnumeq
    rw [hnumeq, Rat.num_div_den]
  set La := Nat.log 2 q.num.toNat with hLa
  set Lb := Nat.log 2 q.den with hLb
  set e0 : ℤ := (La : ℤ) - (Lb : ℤ) with he0
  -- q < 2^(e0+1)
  have hup : q < zpow2 (e0 + 1) := by
    rw [hqeq, div_lt_iff₀ hdenpos]
    have h1 : (q.num.toNat : ℚ) < zpow2 ((La : ℤ) + 1) := by
      rw [show ((La : ℤ) + 1) = ((La + 1 : ℕ) : ℤ) by push_cast; ring, zpow2_natCast]
      exact hA2
    have h2 : zpow2 ((La : ℤ) + 1) = zpow2 (e0 + 1) * zpow2 (Lb : ℤ) := by
      rw [← zpow2_add]; ring_nf
    have h3 : zpow2 (e0 + 1) * zpow2 (Lb : ℤ) ≤ zpow2 (e0 + 1) * (q.den : ℚ) := by
      apply mul_le_mul_of_nonneg_left _ (le_of_lt (zpow2_pos _))
      rw [zpow2_natCast]; exact hB
    calc (q.num.toNat : ℚ) < zpow2 ((La : ℤ) + 1) := h1
      _ = zpow2 (e0 + 1) * zpow2 (Lb : ℤ) := h2
      _ ≤ zpow2 (e0 + 1) * (q.den : ℚ) := h3
  -- 2^(e0-1) < q
  have hlow : zpow2 (e0 - 1) < q := by
    rw [hqeq, lt_div_iff₀ hdenpos]
    have h1 : zpow2 (e0 - 1) * (q.den : ℚ) < zpow2 (e0 - 1) * zpow2 ((Lb : ℤ) + 1) := by
      apply mul_lt_mul_of_pos_left _ (zpow2_pos _)
      rw [show ((Lb : ℤ) + 1) = ((Lb + 1 : ℕ) : ℤ) by push_cast; ring, zpow2_natCast]
      exact hB2
    have h2 : zpow2 (e0 - 1) * zpow2 ((Lb : ℤ) + 1) = zpow2 (La : ℤ) := by
      rw [← zpow2_add]; ring_nf
    have h3 : zpow2 (La : ℤ) ≤ (q.num.toNat : ℚ) := by
      rw [zpow2_natCast]; exact hA
    calc zpow2 (e0 - 1) * (q.den : ℚ) < zpow2 (e0 - 1) * zpow2 ((Lb : ℤ) + 1) := h1
      _ = zpow2 (La : ℤ) := h2
      _ ≤ (q.num.toNat : ℚ) := h3
  unfold qlog2
  rw [← hLa, ← hLb, ← he0]
  split_ifs with h
  · refine ⟨le_of_lt hlow, ?_⟩
    rw [show e0 - 1 + 1 = e0 by ring]
    exact h
  · exact ⟨not_lt.mp h, hup⟩

/-- The ulp scale used when rounding `q` (`e - 52` for normal values, clamped
at the subnormal scale `2^-1074`). -/
def dscale (q : ℚ) : ℤ := max (qlog2 q - 52) (-1074)

/-- Round a positive rational to the binary64 grid (round-to-nearest, ties to
even), without an overflow check. -/
def roundPos (q : ℚ) : ℚ := (rne (q / zpow2 (dscale q)) : ℚ) * zpow2 (dscale q)

/-- IEEE-754 binary64 round-to-nearest-even of an exact rational value,
including overflow to the infinities.  Underflow rounds to (plus or minus)
zero, which the model identifies with `0`. -/
def roundDouble (q : ℚ) : JsNum :=
  if q = 0 then .fin 0
  else if 0 < q then
    (if zpow2 1024 ≤ roundPos q then .posInf else .fin (roundPos q))
  else
    (if zpow2 1024 ≤ roundPos (-q) then .negInf else .fin (-roundPos (-q)))

/-- `x` is a representable binary64 value (sign-magnitude grid, ignoring the
finite exponent range at the top; overflow is handled separately by
`roundDouble`). -/
def ReprD (x : ℚ) : Prop :=
  ∃ m t : ℤ, |m| ≤ 2 ^ 53 ∧ -1074 ≤ t ∧ x = (m : ℚ) * zpow2 t

theorem ReprD.neg {x : ℚ} (hx : ReprD x) : ReprD (-x) := by
  obtain ⟨m, t, hm, ht, hx⟩ := hx
  exact ⟨-m, t, by simpa using hm, ht, by push_cast [hx]; ring⟩

theorem ReprD_zero : ReprD 0 := ⟨0, 0, by norm_num, by norm_num, by norm_num⟩

theorem dscale_ge (q : ℚ) : -1074 ≤ dscale q := le_max_right _ _

theorem dscale_ge' (q : ℚ) : qlog2 q - 52 ≤ dscale q := le_max_left _ _

/-- Rounding error bound: half an ulp. -/
theorem roundPos_err (q : ℚ) : |roundPos q - q| ≤ zpow2 (dscale q - 1) := by
  have h : roundPos q - q =
      ((rne (q / zpow2 (dscale q)) : ℚ) - q / zpow2 (dscale q)) * zpow2 (dscale q) := by
    rw [roundPos, sub_mul, div_mul_cancel₀ _ (zpow2_ne_zero _)]
  rw [h, abs_mul, abs_of_pos (zpow2_pos _)]
  have herr := rne_err (q / zpow2 (dscale q))
  have h2 : zpow2 (dscale q - 1) = 1 / 2 * zpow2 (dscale q) := by
    rw [show dscale q - 1 = -1 + dscale q by ring, zpow2_add]
    congr 1
    rw [zpow2]
    norm_num
  rw [h2]
  exact mul_le_mul_of_nonneg_right herr (le_of_lt (zpow2_pos _))

theorem roundPos_nonneg {q : ℚ} (hq : 0 < q) : 0 ≤ roundPos q := by
  have h1 : 0 ≤ rne (q / zpow2 (dscale q)) :=
    rne_nonneg (le_of_lt (div_pos hq (zpow2_pos _)))
  have h2 : (0 : ℚ) ≤ (rne (q / zpow2 (dscale q)) : ℚ) := by exact_mod_cast h1
  exact mul_nonneg h2 (le_of_lt (zpow2_pos _))

/-- The rounded mantissa of a positive value is between `0` and `2^53`. -/
theorem roundPos_mantissa {q : ℚ} (hq : 0 < q) :
    0 ≤ rne (q / zpow2 (dscale q)) ∧ rne (q / zpow2 (dscale q)) ≤ 2 ^ 53 := by
  have hu : 0 < q / zpow2 (dscale q) := div_pos hq (zpow2_pos _)
  refine ⟨rne_nonneg (le_of_lt hu), ?_⟩
  have hqup := (qlog2_spec hq).2
  have hup : q / zpow2 (dscale q) < zpow2 53 := by
    rw [div_lt_iff₀ (zpow2_pos _), ← zpow2_add]
    exact lt_of_lt_of_le hqup (zpow2_le_zpow2 (by have := dscale_ge' q; omega))
  have herr := rne_err (q / zpow2 (dscale q))
  have h1 : (rne (q / zpow2 (dscale q)) : ℚ) ≤ q / zpow2 (dscale q) + 1 / 2 := by
    have := abs_le.mp herr; linarith [this.1, this.2]
  have h3 : zpow2 53 = ((2 ^ 53 : ℤ) : ℚ) := by
    rw [show (53 : ℤ) = ((53 : ℕ) : ℤ) by norm_num, zpow2_natCast]; push_cast; ring
  have h2 : (rne (q / zpow2 (dscale q)) : ℚ) < ((2 ^ 53 + 1 : ℤ) : ℚ) := by
    rw [h3] at hup; push_cast at hup ⊢; linarith
  have h4 : rne (q / zpow2 (dscale q)) < 2 ^ 53 + 1 := by exact_mod_cast h2
  omega

theorem roundPos_reprD {q : ℚ} (hq : 0 < q) : ReprD (roundPos q) := by
  obtain ⟨h0, h53⟩ := roundPos_mantissa hq
  exact ⟨rne (q / zpow2 (dscale q)), dscale q,
    by rw [abs_of_nonneg h0]; exact h53, dscale_ge q, rfl⟩

/-- Auxiliary: any bounded-mantissa dyadic is either a multiple of `2^s` or
has an odd mantissa at a scale strictly below `s` (and not below the scale it
started at). -/
theorem dyadic_split (s : ℤ) :
    ∀ (n : ℕ) (m t : ℤ), (s - t).toNat = n → |m| ≤ 2 ^ 53 →
      (∃ k : ℤ, (m : ℚ) * zpow2 t = (k : ℚ) * zpow2 s) ∨
      (∃ m' t' : ℤ, m' % 2 = 1 ∧ |m'| ≤ 2 ^ 53 - 1 ∧ t ≤ t' ∧ t' < s ∧
        (m : ℚ) * zpow2 t = (m' : ℚ) * zpow2 t') := by
  intro n
  induction n with
  | zero =>
    intro m t h0 _
    left
    refine ⟨m * 2 ^ (t - s).toNat, ?_⟩
    have hts : s ≤ t := by omega
    have : zpow2 t = zpow2 ((t - s).toNat : ℤ) * zpow2 s := by
      rw [← zpow2_add]; congr 1; omega
    rw [this, zpow2_natCast]
    push_cast; ring
  | succ n ih =>
    intro m t h0 hm
    have hts : t < s := by omega
    have hmb := abs_le.mp hm
    rcases Int.emod_two_eq m with hpar | hpar
    · -- even mantissa: halve it and move one scale up
      have hm2 : (m : ℚ) = 2 * ((m / 2 : ℤ) : ℚ) := by
        conv_lhs => rw [show m = 2 * (m / 2) by omega]
        push_cast; ring
      have h1 : (m : ℚ) * zpow2 t = ((m / 2 : ℤ) : ℚ) * zpow2 (t + 1) := by
        rw [hm2, zpow2_add, show zpow2 1 = 2 from by rw [zpow2]; norm_num]; ring
      have h2 : |m / 2| ≤ 2 ^ 53 := abs_le.mpr (by omega)
      rcases ih (m / 2) (t + 1) (by omega) h2 with ⟨k, hk⟩ | ⟨m', t', h3, h4, h5, h6, h7⟩
      · exact Or.inl ⟨k, by rw [h1, hk]⟩
      · exact Or.inr ⟨m', t', h3, h4, by omega, h6, by rw [h1, h7]⟩
    · -- odd mantissa: |m| ≤ 2^53 and odd forces |m| ≤ 2^53 - 1
      exact Or.inr ⟨m, t, hpar, abs_le.mpr (by omega), le_refl t, hts, rfl⟩

/-- Round-to-nearest optimality: `roundPos q` is at least as close to `q` as
any representable value. -/
theorem roundPos_nearest {q : ℚ} (hq : 0 < q) {x : ℚ} (hx : ReprD x) :
    |roundPos q - q| ≤ |x - q| := by
  obtain ⟨m, t, hm, ht, hxeq⟩ := hx
  rcases dyadic_split (dscale q) (dscale q - t).toNat m t rfl hm with
    ⟨k, hk⟩ | ⟨m', t', hodd, hm', htt', hts, hmt⟩
  · -- x is a multiple of 2^(dscale q): direct consequence of rne_nearest
    have hx2 : x = (k : ℚ) * zpow2 (dscale q) := by rw [hxeq, hk]
    have h := rne_nearest (q / zpow2 (dscale q)) k
    have hpos : (0 : ℚ) < zpow2 (dscale q) := zpow2_pos _
    have h1 : |roundPos q - q| =
        |(rne (q / zpow2 (dscale q)) : ℚ) - q / zpow2 (dscale q)| * zpow2 (dscale q) := by
      rw [roundPos]
      have : (rne (q / zpow2 (dscale q)) : ℚ) * zpow2 (dscale q) - q =
          ((rne (q / zpow2 (dscale q)) : ℚ) - q / zpow2 (dscale q)) * zpow2 (dscale q) := by
        field_simp
      rw [this, abs_mul, abs_of_pos hpos]
    have h2 : |x - q| = |(k : ℚ) - q / zpow2 (dscale q)| * zpow2 (dscale q) := by
      rw [hx2]
      have : (k : ℚ) * zpow2 (dscale q) - q =
          ((k : ℚ) - q / zpow2 (dscale q)) * zpow2 (dscale q) := by field_simp
      rw [this, abs_mul, abs_of_pos hpos]
    rw [h1, h2]
    exact mul_le_mul_of_nonneg_right h (le_of_lt hpos)
  · -- x has an odd mantissa strictly below the rounding scale: the scale is
    -- then the normal one, and x lies at least half an ulp away from q
    have hxeq' : x = (m' : ℚ) * zpow2 t' := by rw [hxeq, hmt]
    have ht' : -1074 ≤ t' := le_trans ht htt'
    have hse : dscale q = qlog2 q - 52 := by
      rcases max_cases (qlog2 q - 52) (-1074 : ℤ) with ⟨h, _⟩ | ⟨h, _⟩
      · rw [dscale, h]
      · exfalso
        have hseq : dscale q = -1074 := by rw [dscale, h]
        omega
    have he_lb := (qlog2_spec hq).1
    have herr := roundPos_err q
    have hkey : zpow2 (dscale q - 1) ≤ |x - q| := by
      rcases lt_trichotomy m' 0 with hneg | hzero | hpos
      · -- negative x: distance at least q ≥ 2^e ≥ 2^(s-1)
        have hx_neg : x ≤ 0 := by
          rw [hxeq']
          apply mul_nonpos_of_nonpos_of_nonneg
          · exact_mod_cast le_of_lt hneg
          · exact le_of_lt (zpow2_pos _)
        have habs : |x - q| = q - x := by
          rw [abs_sub_comm, abs_of_nonneg (by linarith)]
        rw [habs]
        have h2 : zpow2 (dscale q - 1) ≤ zpow2 (qlog2 q) := zpow2_le_zpow2 (by omega)
        linarith
      · omega
      · -- positive odd mantissa: x ≤ (2^53 - 1) * 2^(s-1) = 2^e - 2^(s-1)
        have hx_ub : x ≤ zpow2 (qlog2 q) - zpow2 (dscale q - 1) := by
          rw [hxeq']
          have h1 : (m' : ℚ) ≤ ((2 ^ 53 - 1 : ℤ) : ℚ) := by
            have := abs_le.mp hm'
            exact_mod_cast (by omega : m' ≤ 2 ^ 53 - 1)
          have h2 : zpow2 t' ≤ zpow2 (dscale q - 1) := zpow2_le_zpow2 (by omega)
          have h3 : (m' : ℚ) * zpow2 t' ≤ ((2 ^ 53 - 1 : ℤ) : ℚ) * zpow2 (dscale q - 1) := by
            apply mul_le_mul h1 h2 (le_of_lt (zpow2_pos _))
            have : (0 : ℤ) ≤ 2 ^ 53 - 1 := by norm_num
            exact_mod_cast this
          have h4 : ((2 ^ 53 - 1 : ℤ) : ℚ) * zpow2 (dscale q - 1) =
              zpow2 (qlog2 q) - zpow2 (dscale q - 1) := by
            have h5 : zpow2 (qlog2 q) = zpow2 53 * zpow2 (dscale q - 1) := by
              rw [← zpow2_add]; congr 1; omega
            have h53 : zpow2 53 = ((2 ^ 53 : ℤ) : ℚ) := by
              rw [show (53 : ℤ) = ((53 : ℕ) : ℤ) by norm_num, zpow2_natCast]; push_cast; ring
            rw [h5, h53]; push_cast; ring
          linarith
        have hzp := zpow2_pos (dscale q - 1)
        have habs : |x - q| = q - x := by
          rw [abs_sub_comm, abs_of_nonneg (by linarith)]
        rw [habs]
        linarith
    linarith

/-- Rounding fixes representable values. -/
theorem roundPos_fix {x : ℚ} (hx : ReprD x) (h : 0 < x) : roundPos x = x := by
  have h1 := roundPos_nearest h hx
  simp only [sub_self, abs_zero] at h1
  have h2 : |roundPos x - x| = 0 := le_antisymm h1 (abs_nonneg _)
  have h3 := abs_eq_zero.mp h2
  linarith

theorem roundDouble_fix {x : ℚ} (hx : ReprD x) (hb : |x| < zpow2 1024) :
    roundDouble x = .fin x := by
  rcases lt_trichotomy x 0 with hneg | h0 | hpos
  · have hfix : roundPos (-x) = -x := roundPos_fix hx.neg (by linarith)
    have hb' : roundPos (-x) < zpow2 1024 := by
      rw [hfix]; rw [abs_of_neg hneg] at hb; exact hb
    rw [roundDouble, if_neg (ne_of_lt hneg), if_neg (not_lt.mpr (le_of_lt hneg)),
      if_neg (not_le.mpr hb'), hfix]
    congr 1; ring
  · rw [h0]
    simp [roundDouble]
  · have hfix : roundPos x = x := roundPos_fix hx hpos
    have hb' : roundPos x < zpow2 1024 := by
      rw [hfix]; rw [abs_of_pos hpos] at hb; exact hb
    rw [roundDouble, if_neg (ne_of_gt hpos), if_pos hpos, if_neg (not_le.mpr hb'), hfix]

theorem reprD_natCast_le {N : ℕ} (h : N ≤ 2 ^ 53) : ReprD (N : ℚ) := by
  refine ⟨(N : ℤ), 0, ?_, by norm_num, by rw [zpow2]; norm_num⟩
  rw [abs_of_nonneg (by positivity)]
  exact_mod_cast h

/-- `roundDouble` is exact on naturals up to `2^53`. -/
theorem roundDouble_natCast {N : ℕ} (h : N ≤ 2 ^ 53) :
    roundDouble (N : ℚ) = .fin (N : ℚ) := by
  apply roundDouble_fix (reprD_natCast_le h)
  rw [abs_of_nonneg (by positivity)]
  calc (N : ℚ) ≤ ((2 ^ 53 : ℕ) : ℚ) := by exact_mod_cast h
    _ < ((2 ^ 1024 : ℕ) : ℚ) := by exact_mod_cast (by norm_num : (2 : ℕ) ^ 53 < 2 ^ 1024)
    _ = zpow2 1024 := by rw [show (1024 : ℤ) = ((1024 : ℕ) : ℤ) by norm_num, zpow2_natCast]

theorem reprD_of_roundDouble {q y : ℚ} (h : roundDouble q = .fin y) : ReprD y := by
  unfold roundDouble at h
  by_cases h1 : q = 0
  · rw [if_pos h1] at h
    cases h; exact ReprD_zero
  · rw [if_neg h1] at h
    by_cases h2 : 0 < q
    · rw [if_pos h2] at h
      by_cases h3 : zpow2 1024 ≤ roundPos q
      · rw [if_pos h3] at h; exact JsNum.noConfusion h
      · rw [if_neg h3] at h
        cases h; exact roundPos_reprD h2
    · rw [if_neg h2] at h
      have hneg : 0 < -q := by
        have hle : q ≤ 0 := not_lt.mp h2
        have : q < 0 := lt_of_le_of_ne hle h1
        linarith
      by_cases h4 : zpow2 1024 ≤ roundPos (-q)
      · rw [if_pos h4] at h; exact JsNum.noConfusion h
      · rw [if_neg h4] at h
        cases h; exact (roundPos_reprD hneg).neg

theorem roundDouble_fin_lt {q y : ℚ} (h : roundDouble q = .fin y) : |y| < zpow2 1024 := by
  unfold roundDouble at h
  by_cases h1 : q = 0
  · rw [if_pos h1] at h
    cases h; simpa using zpow2_pos 1024
  · rw [if_neg h1] at h
    by_cases h2 : 0 < q
    · rw [if_pos h2] at h
      by_cases h3 : zpow2 1024 ≤ roundPos q
      · rw [if_pos h3] at h; exact JsNum.noConfusion h
      · rw [if_neg h3] at h
        cases h
        rw [abs_of_nonneg (roundPos_nonneg h2)]
        exact not_le.mp h3
    · rw [if_neg h2] at h
      have hneg : 0 < -q := by
        have hle : q ≤ 0 := not_lt.mp h2
        have : q < 0 := lt_of_le_of_ne hle h1
        linarith
      by_cases h4 : zpow2 1024 ≤ roundPos (-q)
      · rw [if_pos h4] at h; exact JsNum.noConfusion h
      · rw [if_neg h4] at h
        cases h
        rw [abs_neg, abs_of_nonneg (roundPos_nonneg hneg)]
        exact not_le.mp h4

/-! ### Decimal digit characters and digit lists -/

/-- A decimal digit character (the regex class `[0-9]` / `\\d`). -/
def isDigitC (c : Char) : Bool := 48 ≤ c.toNat && c.toNat ≤ 57

def digitVal (c : Char) : ℕ := c.toNat - 48

def digitCharOf (d : ℕ) : Char := Char.ofNat (48 + d)

/-- Big-endian numeric value of a list of decimal digit characters (the way
`parseFloat`/`parseInt`/`BigInt` accumulate digits). -/
def valBE (l : List Char) : ℕ := l.foldl (fun a c => a * 10 + digitVal c) 0

/-- Little-endian decimal digits with explicit fuel, so that the recursion is
structural and the kernel can evaluate it. -/
def digitsLE : ℕ → ℕ → List ℕ
  | 0, _ => []
  | fuel + 1, n => if n = 0 then [] else n % 10 :: digitsLE fuel (n / 10)

/-- The decimal digit characters of `m` (JavaScript `String(m)` for a
nonnegative integer). -/
def natChars (m : ℕ) : List Char :=
  if m = 0 then ['0'] else ((digitsLE m m).reverse).map digitCharOf

theorem valBE_go (l : List Char) (a : ℕ) :
    l.foldl (fun a c => a * 10 + digitVal c) a =
      a * 10 ^ l.length + valBE l := by
  induction l generalizing a with
  | nil => simp [valBE]
  | cons c tl ih =>
    simp only [List.foldl_cons, List.length_cons, valBE]
    rw [ih (a * 10 + digitVal c), ih (0 * 10 + digitVal c)]
    ring

theorem valBE_append (l₁ l₂ : List Char) :
    valBE (l₁ ++ l₂) = valBE l₁ * 10 ^ l₂.length + valBE l₂ := by
  rw [valBE, List.foldl_append, ← valBE, valBE_go]

theorem valBE_singleton (c : Char) : valBE [c] = digitVal c := by
  simp [valBE]

theorem digitCharOf_val : ∀ d : Fin 10, digitVal (digitCharOf d) = d := by decide

theorem digitCharOf_isDigit : ∀ d : Fin 10, isDigitC (digitCharOf d) = true := by decide

theorem digitCharOf_not_ws : ∀ d : Fin 10,
    (digitCharOf (d : ℕ) = ' ' ∨ digitCharOf (d : ℕ) = '.') = False := by decide

theorem digitVal_digitCharOf {d : ℕ} (h : d < 10) : digitVal (digitCharOf d) = d :=
  digitCharOf_val ⟨d, h⟩

theorem isDigitC_digitCharOf {d : ℕ} (h : d < 10) : isDigitC (digitCharOf d) = true :=
  digitCharOf_isDigit ⟨d, h⟩

theorem digitsLE_lt_base : ∀ (fuel n : ℕ), ∀ d ∈ digitsLE fuel n, d < 10 := by
  intro fuel
  induction fuel with
  | zero => intro n d hd; simp [digitsLE] at hd
  | succ fuel ih =>
    intro n d hd
    by_cases h : n = 0
    · simp [digitsLE, h] at hd
    · rw [digitsLE, if_neg h] at hd
      rcases List.mem_cons.mp hd with h1 | h1
      · rw [h1]; exact Nat.mod_lt _ (by norm_num)
      · exact ih _ d h1

theorem valBE_digitsLE : ∀ (fuel n : ℕ), n ≤ fuel →
    valBE ((digitsLE fuel n).reverse.map digitCharOf) = n := by
  intro fuel
  induction fuel with
  | zero => intro n h; interval_cases n; simp [digitsLE, valBE]
  | succ fuel ih =>
    intro n h
    by_cases h0 : n = 0
    · simp [digitsLE, h0, valBE]
    · rw [digitsLE, if_neg h0]
      simp only [List.reverse_cons, List.map_append, List.map_cons, List.map_nil]
      rw [valBE_append]
      have hdiv : n / 10 ≤ fuel := by
        have : n / 10 < n := Nat.div_lt_self (by omega) (by norm_num)
        omega
      rw [ih _ hdiv]
      simp only [List.length_cons, List.length_nil, pow_one, zero_add]
      rw [valBE_singleton, digitVal_digitCharOf (Nat.mod_lt _ (by norm_num))]
      omega

theorem digitsLE_len_le : ∀ (fuel n k : ℕ), n < 10 ^ k → (digitsLE fuel n).length ≤ k := by
  intro fuel
  induction fuel with
  | zero => intro n k _; simp [digitsLE]
  | succ fuel ih =>
    intro n k hk
    by_cases h0 : n = 0
    · simp [digitsLE, h0]
    · rw [digitsLE, if_neg h0, List.length_cons]
      have hk0 : k ≠ 0 := by
        intro h; rw [h] at hk; simp at hk; omega
      have hdiv : n / 10 < 10 ^ (k - 1) := by
        rw [Nat.div_lt_iff_lt_mul (by norm_num)]
        calc n < 10 ^ k := hk
          _ = 10 ^ (k - 1) * 10 := by
              rw [← pow_succ]; congr 1; omega
      have := ih (n / 10) (k - 1) hdiv
      omega

theorem digitsLE_lt : ∀ (fuel n : ℕ), n ≤ fuel → n < 10 ^ (digitsLE fuel n).length := by
  intro fuel
  induction fuel with
  | zero => intro n h; interval_cases n; simp [digitsLE]
  | succ fuel ih =>
    intro n h
    by_cases h0 : n = 0
    · simp [digitsLE, h0]
    · rw [digitsLE, if_neg h0, List.length_cons]
      have hdiv : n / 10 ≤ fuel := by
        have : n / 10 < n := Nat.div_lt_self (by omega) (by norm_num)
        omega
      have := ih (n / 10) hdiv
      rw [pow_succ]
      have h2 : n / 10 + 1 ≤ 10 ^ (digitsLE fuel (n / 10)).length := this
      have h3 : n < (n / 10 + 1) * 10 := by omega
      calc n < (n / 10 + 1) * 10 := h3
        _ ≤ 10 ^ (digitsLE fuel (n / 10)).length * 10 := by
            exact Nat.mul_le_mul_right 10 h2

theorem valBE_natChars (m : ℕ) : valBE (natChars m) = m := by
  by_cases h : m = 0
  · subst h; decide
  · rw [natChars, if_neg h]
    exact valBE_digitsLE m m le_rfl

theorem natChars_digits (m : ℕ) : ∀ c ∈ natChars m, isDigitC c = true := by
  by_cases h : m = 0
  · simp [natChars, h]
    decide
  · rw [natChars, if_neg h]
    intro c hc
    obtain ⟨d, hd, hdc⟩ := List.mem_map.mp hc
    rw [← hdc]
    exact isDigitC_digitCharOf (digitsLE_lt_base m m d (List.mem_reverse.mp hd))

theorem natChars_ne_nil (m : ℕ) : natChars m ≠ [] := by
  by_cases h : m = 0
  · simp [natChars, h]
  · rw [natChars, if_neg h]
    intro hcon
    have h1 := valBE_natChars m
    rw [natChars, if_neg h] at h1
    rw [hcon] at h1
    simp [valBE] at h1
    exact h h1.symm

theorem natChars_len_le {m k : ℕ} (h : m < 10 ^ k) (hk : 1 ≤ k) :
    (natChars m).length ≤ k := by
  by_cases h0 : m = 0
  · simp [natChars, h0]; omega
  · rw [natChars, if_neg h0, List.length_map, List.length_reverse]
    exact digitsLE_len_le m m k h

/-- Fraction part of `toFixed(7)`: `m` (with `m < 10^7`) printed as exactly
seven digit characters, left-padded with zeros. -/
def fracChars (m : ℕ) : List Char :=
  List.replicate (7 - (digitsLE m m).length) '0' ++ ((digitsLE m m).reverse).map digitCharOf

theorem valBE_replicate_zero (k : ℕ) (l : List Char) :
    valBE (List.replicate k '0' ++ l) = valBE l := by
  induction k with
  | zero => simp
  | succ k ih =>
    rw [List.replicate_succ, List.cons_append]
    show List.foldl _ (0 * 10 + digitVal '0') _ = _
    have : (0 : ℕ) * 10 + digitVal '0' = 0 := by decide
    rw [this]
    exact ih

theorem valBE_fracChars (m : ℕ) : valBE (fracChars m) = m := by
  rw [fracChars, valBE_replicate_zero]
  exact valBE_digitsLE m m le_rfl

theorem fracChars_len {m : ℕ} (h : m < 10 ^ 7) : (fracChars m).length = 7 := by
  rw [fracChars, List.length_append, List.length_replicate, List.length_map,
    List.length_reverse]
  have := digitsLE_len_le m m 7 h
  omega

theorem fracChars_digits (m : ℕ) : ∀ c ∈ fracChars m, isDigitC c = true := by
  intro c hc
  rcases List.mem_append.mp hc with h1 | h1
  · rw [List.eq_of_mem_replicate h1]; decide
  · obtain ⟨d, hd, hdc⟩ := List.mem_map.mp h1
    rw [← hdc]
    exact isDigitC_digitCharOf (digitsLE_lt_base m m d (List.mem_reverse.mp hd))

/-! ### `parseFloat` (ECMA-262 `parseFloat` / StrDecimalLiteral) -/

/-- ECMAScript whitespace accepted at the start of a numeric string (the main
ASCII cases; the CLI prompts additionally trim their input). -/
def isWS (c : Char) : Bool :=
  c = ' ' || c = '\t' || c = '\n' || c = '\r' || c = '\x0b' || c = '\x0c'

def qpow10 (e : ℤ) : ℚ := (10 : ℚ) ^ e

/-- Value of an optional exponent part (`e`/`E`, optional sign, digits) at the
end of a decimal literal.  An absent or malformed exponent contributes `0`
(i.e. `parseFloat` backtracks to the literal before the `e`). -/
def expVal (l : List Char) : ℤ :=
  match l with
  | c :: rest =>
    if c = 'e' ∨ c = 'E' then
      match rest with
      | '+' :: r2 =>
        if r2.takeWhile isDigitC = [] then 0 else (valBE (r2.takeWhile isDigitC) : ℤ)
      | '-' :: r2 =>
        if r2.takeWhile isDigitC = [] then 0 else -(valBE (r2.takeWhile isDigitC) : ℤ)
      | r2 =>
        if r2.takeWhile isDigitC = [] then 0 else (valBE (r2.takeWhile isDigitC) : ℤ)
    else 0
  | [] => 0

/-- Result of parsing an unsigned decimal literal prefix. -/
inductive PFloat where
  | noLit : PFloat
  | infLit : PFloat
  | finLit (q : ℚ) : PFloat

/-- Longest valid `StrUnsignedDecimalLiteral` prefix of `l`, as an exact
rational (`Infinity` handled separately). -/
def infinityChars : List Char := ['I', 'n', 'f', 'i', 'n', 'i', 't', 'y']

def parseUnsigned (l : List Char) : PFloat :=
  if l.take 8 = infinityChars then .infLit
  else
    match l.dropWhile isDigitC with
    | '.' :: r2 =>
      if l.takeWhile isDigitC = [] ∧ r2.takeWhile isDigitC = [] then .noLit
      else .finLit (((valBE (l.takeWhile isDigitC) : ℚ) +
          (valBE (r2.takeWhile isDigitC) : ℚ) / 10 ^ (r2.takeWhile isDigitC).length) *
          qpow10 (expVal (r2.dropWhile isDigitC)))
    | r1 =>
      if l.takeWhile isDigitC = [] then .noLit
      else .finLit ((valBE (l.takeWhile isDigitC) : ℚ) * qpow10 (expVal r1))

/-- Sign application and rounding, shared by the three sign cases of
`parseFloat`. -/
def applySign (neg : Bool) : PFloat → JsNum
  | .noLit => .nan
  | .infLit => if neg then .negInf else .posInf
  | .finLit q => roundDouble (if neg then -q else q)

/-- ECMAScript `parseFloat`: skip leading whitespace, read an optional sign,
parse the longest decimal-literal prefix (NaN if there is none), and round
the exact mathematical value to binary64. -/
def parseFloat (s : String) : JsNum :=
  match s.data.dropWhile isWS with
  | '+' :: r => applySign false (parseUnsigned r)
  | '-' :: r => applySign true (parseUnsigned r)
  | r => applySign false (parseUnsigned r)

/-! ### `Number.prototype.toFixed(7)` and `Number::toString` -/

/-- The digit string of `toFixed(7)` for a nonnegative value below `10^21`:
`n` is the numerator of the chosen `n / 10^7` approximation. -/
def fixedString7 (n : ℕ) : String :=
  String.mk (natChars (n / 10 ^ 7) ++ '.' :: fracChars (n % 10 ^ 7))

/-- Acceptability of mantissa `s` with `k` significant digits for the ES
`Number::toString` search on integer `n` with `D` digits: `s` must have
exactly `k` digits and `s·10^(D-k)` must round back to `n`. -/
def sciOk (n D k s : ℕ) : Bool :=
  decide (10 ^ (k - 1) ≤ s) && decide (s < 10 ^ k) &&
    decide (roundDouble ((s * 10 ^ (D - k) : ℕ) : ℚ) = JsNum.fin (n : ℚ))

/-- One candidate mantissa for the shortest-round-trip `Number::toString` of
the integer `n` (`D` decimal digits), using `k` significant digits: of the
two straddling candidates, the acceptable one — the closer (then even) one
if both are acceptable, as ES requires. -/
def sciPick (n D k : ℕ) : Option ℕ :=
  if sciOk n D k (n / 10 ^ (D - k)) && sciOk n D k (n / 10 ^ (D - k) + 1) then
    (if 2 * (n - n / 10 ^ (D - k) * 10 ^ (D - k)) <
        2 * ((n / 10 ^ (D - k) + 1) * 10 ^ (D - k) - n) then some (n / 10 ^ (D - k))
     else if 2 * ((n / 10 ^ (D - k) + 1) * 10 ^ (D - k) - n) <
        2 * (n - n / 10 ^ (D - k) * 10 ^ (D - k)) then some (n / 10 ^ (D - k) + 1)
     else if n / 10 ^ (D - k) % 2 = 0 then some (n / 10 ^ (D - k))
     else some (n / 10 ^ (D - k) + 1))
  else if sciOk n D k (n / 10 ^ (D - k)) then some (n / 10 ^ (D - k))
  else if sciOk n D k (n / 10 ^ (D - k) + 1) then some (n / 10 ^ (D - k) + 1)
  else none

/-- Search for the smallest number of significant digits `k` (up to a fuel of
17, which always suffices for binary64) that reproduces `n`. -/
def sciFrom (n D : ℕ) : ℕ → ℕ → Option (ℕ × ℕ)
  | _, 0 => none
  | k, fuel + 1 =>
    match sciPick n D k with
    | some s => some (k, s)
    | none => sciFrom n D (k + 1) fuel

/-- Scientific-notation characters `d.dddde+NN` for the mantissa digits of
`s` and decimal exponent `D - 1`. -/
def sciChars (s D : ℕ) : List Char :=
  match (digitsLE s s).reverse.map digitCharOf with
  | [] => ['0']
  | c :: rest =>
    if rest = [] then c :: 'e' :: '+' :: natChars (D - 1)
    else (c :: '.' :: rest) ++ ('e' :: '+' :: natChars (D - 1))

/-- `Number::toString` for a (nonnegative, integral) double at least `10^21`:
the ES shortest-round-trip digit search in scientific notation, falling back
to the exact decimal expansion (which always round-trips) if 17 significant
digits were somehow not enough.  `k` is the mantissa-digit count actually
found. -/
def jsBigToString (x : ℚ) : String :=
  match sciFrom x.num.toNat (digitsLE x.num.toNat x.num.toNat).length 1 17 with
  | some ks => String.mk (sciChars ks.2 (digitsLE x.num.toNat x.num.toNat).length)
  | none => String.mk (natChars x.num.toNat)

/-- `Number.prototype.toFixed(7)` per ES: `NaN`/infinities print their names,
values at least `10^21` defer to `Number::toString`, and otherwise the value
is printed as the integer `n` closest to `x·10^7` (ties away from zero in the
direction of larger `n`) with a decimal point inserted. -/
def jsToFixed7 : JsNum → String
  | .nan => "NaN"
  | .posInf => "Infinity"
  | .negInf => "-Infinity"
  | .fin q =>
    if q < 0 then
      (if 10 ^ 21 ≤ -q then "-" ++ jsBigToString (-q)
       else "-" ++ fixedString7 (⌊-q * 10 ^ 7 + 1 / 2⌋).toNat)
    else
      (if 10 ^ 21 ≤ q then jsBigToString q
       else fixedString7 (⌊q * 10 ^ 7 + 1 / 2⌋).toNat)

/-! ### The source's helper functions (`build-transaction.ts`) -/

/-- `formatAmount` from the source: `parseFloat(amount).toFixed(7)`. -/
def formatAmount (amount : String) : String := jsToFixed7 (parseFloat amount)

inductive OpType where
  | payment : OpType
  | createAccount : OpType
deriving DecidableEq

def MIN_ACCOUNT_BALANCE : String := "1.0000000"

def jsIsNaN : JsNum → Bool
  | .nan => true
  | _ => false

/-- JavaScript `<=` on numbers (false whenever either side is NaN). -/
def jsLe : JsNum → JsNum → Bool
  | .nan, _ => false
  | _, .nan => false
  | .negInf, _ => true
  | _, .negInf => false
  | _, .posInf => true
  | .posInf, _ => false
  | .fin a, .fin b => decide (a ≤ b)

/-- JavaScript `<` on numbers (false whenever either side is NaN). -/
def jsLt : JsNum → JsNum → Bool
  | .nan, _ => false
  | _, .nan => false
  | .negInf, .negInf => false
  | .negInf, _ => true
  | _, .negInf => false
  | .posInf, _ => false
  | _, .posInf => true
  | .fin a, .fin b => decide (a < b)

/-- The amount-prompt loop body of `buildStellarTransaction` (lines 177-188):
`true` iff the entered string is accepted (the loop `break`s).
`isNaN(amountNum) || amountNum <= 0` re-asks, and for create-account
operations `amountNum < parseFloat(MIN_ACCOUNT_BALANCE)` re-asks. -/
def validateAmount (amount : String) (operationType : OpType) : Bool :=
  let amountNum := parseFloat amount
  if jsIsNaN amountNum || jsLe amountNum (.fin 0) then false
  else if decide (operationType = OpType.createAccount) &&
      jsLt amountNum (parseFloat MIN_ACCOUNT_BALANCE) then false
  else true

/-- Hexadecimal digit class of the source regex `^[0-9a-fA-F]+$`. -/
def isHexC (c : Char) : Bool :=
  (48 ≤ c.toNat && c.toNat ≤ 57) || (97 ≤ c.toNat && c.toNat ≤ 102) ||
    (65 ≤ c.toNat && c.toNat ≤ 70)

/-- `isValidHex` from the source (lines 75-77): the regex `^[0-9a-fA-F]+$`
must match (nonempty, all hex digits) and the length must equal
`expectedLength`. -/
def isValidHex (str : String) (expectedLength : ℕ) : Bool :=
  (decide (str.data ≠ []) && str.data.all isHexC) &&
    decide (str.data.length = expectedLength)

/-- `getByteLength` from the source (lines 79-81): `Buffer.byteLength(str,
'utf8')`.  Lean strings are sequences of Unicode scalar values, for which
Node's byte count is exactly the UTF-8 size. -/
def getByteLength (str : String) : ℕ := str.utf8ByteSize

/-- A constructed SDK memo (`Memo.text`/`Memo.id`/`Memo.hash`/`Memo.return`),
carrying the validated input string. -/
inductive Memo where
  | text (value : String) : Memo
  | id (value : String) : Memo
  | hash (value : String) : Memo
  | ret (value : String) : Memo
deriving DecidableEq

/-- ECMAScript hex-digit value (only meaningful on hex digit characters). -/
def hexVal (c : Char) : ℕ :=
  if 48 ≤ c.toNat && c.toNat ≤ 57 then c.toNat - 48
  else if 97 ≤ c.toNat && c.toNat ≤ 102 then c.toNat - 87
  else c.toNat - 55

def valBase (b : ℕ) (l : List Char) : ℕ := l.foldl (fun a c => a * b + hexVal c) 0

def isBinC (c : Char) : Bool := c = '0' || c = '1'

def isOctC (c : Char) : Bool := 48 ≤ c.toNat && c.toNat ≤ 55

/-- ECMAScript `BigInt(string)` (StringToBigInt): the string is whitespace
trimmed on both sides; empty means `0`; `0x`/`0o`/`0b` prefixes (no sign
allowed) parse in that base; otherwise an optional sign followed by nonempty
decimal digits; any other string throws a `SyntaxError`, modelled as `none`.
Unlike `parseFloat`, the whole string must match. -/
def jsBigInt (s : String) : Option ℤ :=
  match (((s.data.dropWhile isWS).reverse).dropWhile isWS).reverse with
  | [] => some 0
  | '0' :: 'x' :: r => if r ≠ [] ∧ r.all isHexC then some ((valBase 16 r : ℕ) : ℤ) else none
  | '0' :: 'X' :: r => if r ≠ [] ∧ r.all isHexC then some ((valBase 16 r : ℕ) : ℤ) else none
  | '0' :: 'o' :: r => if r ≠ [] ∧ r.all isOctC then some ((valBase 8 r : ℕ) : ℤ) else none
  | '0' :: 'O' :: r => if r ≠ [] ∧ r.all isOctC then some ((valBase 8 r : ℕ) : ℤ) else none
  | '0' :: 'b' :: r => if r ≠ [] ∧ r.all isBinC then some ((valBase 2 r : ℕ) : ℤ) else none
  | '0' :: 'B' :: r => if r ≠ [] ∧ r.all isBinC then some ((valBase 2 r : ℕ) : ℤ) else none
  | '+' :: r => if r ≠ [] ∧ r.all isDigitC then some ((valBE r : ℕ) : ℤ) else none
  | '-' :: r => if r ≠ [] ∧ r.all isDigitC then some (-((valBE r : ℕ) : ℤ)) else none
  | r => if r.all isDigitC then some ((valBE r : ℕ) : ℤ) else none

/-- The TEXT case ('1') of `getMemoInput` (lines 124-128). -/
def memoTextCase (memoValue : String) : Except String Memo :=
  if getByteLength memoValue > 28 then .error "TEXT memo exceeds 28 bytes"
  else .ok (.text memoValue)

/-- The ID case ('2') of `getMemoInput` (lines 130-135): `BigInt(memoValue)`
(whose `SyntaxError` also aborts), then the explicit range check. -/
def memoIdCase (memoValue : String) : Except String Memo :=
  match jsBigInt memoValue with
  | none => .error "SyntaxError: cannot convert the string to a BigInt"
  | some idValue =>
    if idValue < 0 ∨ 18446744073709551615 < idValue then
      .error "ID memo must be between 0 and 18446744073709551615"
    else .ok (.id memoValue)

/-- The HASH case ('3') of `getMemoInput` (lines 137-141). -/
def memoHashCase (memoValue : String) : Except String Memo :=
  if ¬ isValidHex memoValue 64 then
    .error "HASH memo must be 64 hex characters (32 bytes)"
  else .ok (.hash memoValue)

/-- The RETURN case ('4') of `getMemoInput` (lines 143-147). -/
def memoReturnCase (memoValue : String) : Except String Memo :=
  if ¬ isValidHex memoValue 64 then
    .error "RETURN memo must be 64 hex characters (32 bytes)"
  else .ok (.ret memoValue)

/-- Outcome of `server.loadAccount(destination)` as observed by the catch
block of `checkDestinationAccountExists`: success, or a rejection whose
`error.response?.status` is `status` (`none` when the error has no HTTP
response, e.g. a transport failure). -/
inductive LoadOutcome where
  | success : LoadOutcome
  | failure (status : Option ℕ) : LoadOutcome
deriving DecidableEq

/-- `checkDestinationAccountExists` (lines 94-104): `true` on success, `false`
exactly on a 404 response, and `true` on every other error. -/
def checkDestinationAccountExists : LoadOutcome → Bool
  | .success => true
  | .failure status => if status = some 404 then false else true

/-- Operation-type selection (lines 170-175): start from `'payment'` and
switch to `'createAccount'` iff the existence check returned `false`. -/
def chooseOperationType (destinationExists : Bool) : OpType :=
  if !destinationExists then .createAccount else .payment

/-- JavaScript `+` on numbers. -/
def jsAdd : JsNum → JsNum → JsNum
  | .nan, _ => .nan
  | _, .nan => .nan
  | .posInf, .negInf => .nan
  | .negInf, .posInf => .nan
  | .posInf, _ => .posInf
  | _, .posInf => .posInf
  | .negInf, _ => .negInf
  | _, .negInf => .negInf
  | .fin a, .fin b => roundDouble (a + b)

/-- `details.sequence` (line 229): `(parseInt(sourceAccount.sequence) +
1).toString()` for a source account whose Horizon-reported sequence string is
the decimal representation of `N`.  `parseInt` yields the double nearest to
`N`, `+ 1` is binary64 addition, and `toString` prints the decimal digits of
the (integral) result — exact for values up to `2^53`, where the
shortest-round-trip printing of ES `Number::toString` coincides with the
exact decimal expansion (every theorem below stays in that range). -/
def detailsSequence (N : ℕ) : String :=
  match jsAdd (roundDouble (N : ℚ)) (.fin 1) with
  | .fin q => String.mk (natChars q.num.toNat)
  | .posInf => "Infinity"
  | .negInf => "-Infinity"
  | .nan => "NaN"

/-- Memo attached by the shape-inference variant. -/
inductive MemoChoice where
  | none : MemoChoice
  | id (value : String) : MemoChoice
  | text (value : String) : MemoChoice
deriving DecidableEq

/-- The regex test `/^\\d+$/.test(memo)`: nonempty and all decimal digits. -/
def regexAllDigits (s : String) : Bool := decide (s.data ≠ []) && s.data.all isDigitC

/-- Memo attachment in the shape-inference variant (`src/unnamed/part_000`,
lines 95-96 and 110-118): `memoInput || null` makes the empty string attach
no memo; otherwise `/^\\d+$/.test(memo) && memo.length <= 19` selects
`Memo.id(memo)`, and every other string becomes `Memo.text(memo)` with no
28-byte check.  (`memo.length` counts UTF-16 units, which agrees with the
scalar count on the all-digit strings the test can accept.) -/
def inferMemo (memoInput : String) : MemoChoice :=
  if memoInput = "" then .none
  else if regexAllDigits memoInput && decide (memoInput.data.length ≤ 19) then .id memoInput
  else .text memoInput

/-! ### Stellar strkey decoding (`Keypair.fromPublicKey`, for C6)

`Keypair.fromPublicKey` lives in the `stellar-sdk` dependency, not in this
repository.  Modelled from the spec: "a well-formed public-key-type account
identifier per the network's key encoding" — the strkey `G...` format: 56
characters of RFC-4648 base32 encoding exactly 35 bytes, namely the version
byte `6 << 3 = 48` (`'G'`), the 32-byte ed25519 key, and a CRC16-XModem
checksum of the first 33 bytes appended little-endian.  (The SDK additionally
re-encodes and compares, which for 56-character inputs is the identity; any
other length cannot canonically encode a 35-byte payload and is rejected.) -/

def baseVal (B : ℕ) (l : List ℕ) : ℕ := l.foldl (fun a d => a * B + d) 0

/-- Fixed-width big-endian digits of `N` in base `B`. -/
def baseDigits (B : ℕ) : ℕ → ℕ → List ℕ
  | 0, _ => []
  | w + 1, N => baseDigits B w (N / B) ++ [N % B]

theorem baseVal_go (B : ℕ) (l : List ℕ) (a : ℕ) :
    l.foldl (fun a d => a * B + d) a = a * B ^ l.length + baseVal B l := by
  induction l generalizing a with
  | nil => simp [baseVal]
  | cons d tl ih =>
    simp only [List.foldl_cons, List.length_cons, baseVal]
    rw [ih (a * B + d), ih (0 * B + d)]
    ring

theorem baseVal_append (B : ℕ) (l₁ l₂ : List ℕ) :
    baseVal B (l₁ ++ l₂) = baseVal B l₁ * B ^ l₂.length + baseVal B l₂ := by
  rw [baseVal, List.foldl_append, ← baseVal, baseVal_go]

theorem baseVal_singleton (B d : ℕ) : baseVal B [d] = d := by
  simp [baseVal]

theorem baseDigits_length (B w N : ℕ) : (baseDigits B w N).length = w := by
  induction w generalizing N with
  | zero => rfl
  | succ w ih => simp [baseDigits, ih]

theorem baseDigits_lt (B : ℕ) (hB : 0 < B) (w N : ℕ) :
    ∀ d ∈ baseDigits B w N, d < B := by
  induction w generalizing N with
  | zero => intro d hd; simp [baseDigits] at hd
  | succ w ih =>
    intro d hd
    rw [baseDigits] at hd
    rcases List.mem_append.mp hd with h | h
    · exact ih _ d h
    · rw [List.mem_singleton.mp h]; exact Nat.mod_lt _ hB

theorem baseVal_baseDigits (B : ℕ) (hB : 0 < B) (w N : ℕ) :
    baseVal B (baseDigits B w N) = N % B ^ w := by
  induction w generalizing N with
  | zero => simp [baseDigits, baseVal, Nat.mod_one]
  | succ w ih =>
    rw [baseDigits, baseVal_append, ih, baseVal_singleton]
    simp only [List.length_singleton, pow_one]
    have h1 : N / B % B ^ w = N % (B * B ^ w) / B := Nat.div_mod_eq_mod_mul_div N B (B ^ w)
    have h2 : B * B ^ w = B ^ (w + 1) := (pow_succ' B w).symm
    rw [h1, h2]
    have h3 : N % B ^ (w + 1) % B = N % B :=
      Nat.mod_mod_of_dvd N (dvd_pow_self B (Nat.succ_ne_zero w))
    calc N % B ^ (w + 1) / B * B + N % B
        = N % B ^ (w + 1) / B * B + N % B ^ (w + 1) % B := by rw [h3]
      _ = N % B ^ (w + 1) := by
          rw [mul_comm]
          exact Nat.div_add_mod _ B

theorem baseVal_lt (B : ℕ) (hB : 0 < B) (l : List ℕ) (h : ∀ d ∈ l, d < B) :
    baseVal B l < B ^ l.length := by
  induction l with
  | nil =>
    show (0 : ℕ) < B ^ 0
    simpa using pow_pos hB 0
  | cons d tl ih =>
    have hd : d < B := h d (List.mem_cons_self d tl)
    have htl := ih (fun x hx => h x (List.mem_cons_of_mem d hx))
    show List.foldl _ (0 * B + d) tl < B ^ (d :: tl).length
    rw [baseVal_go]
    simp only [List.length_cons, zero_mul, zero_add]
    calc d * B ^ tl.length + baseVal B tl
        < d * B ^ tl.length + B ^ tl.length := by omega
      _ = (d + 1) * B ^ tl.length := by ring
      _ ≤ B * B ^ tl.length := Nat.mul_le_mul_right _ (by omega)
      _ = B ^ (tl.length + 1) := (pow_succ' B tl.length).symm

theorem baseDigits_baseVal (B : ℕ) (hB : 0 < B) :
    ∀ (w : ℕ) (ds : List ℕ), ds.length = w → (∀ d ∈ ds, d < B) →
      baseDigits B w (baseVal B ds) = ds := by
  intro w
  induction w with
  | zero =>
    intro ds hlen _
    rw [List.length_eq_zero.mp hlen]
    rfl
  | succ w ih =>
    intro ds hlen hds
    have hne : ds ≠ [] := by
      intro hcon; rw [hcon] at hlen; simp at hlen
    obtain ⟨l₀, d, hsplit⟩ : ∃ l₀ d, ds = l₀ ++ [d] :=
      ⟨ds.dropLast, ds.getLast hne, (List.dropLast_append_getLast hne).symm⟩
    subst hsplit
    have hlen0 : l₀.length = w := by
      rw [List.length_append] at hlen; simp at hlen; omega
    have hd : d < B := hds d (List.mem_append.mpr (Or.inr (List.mem_singleton_self d)))
    have hl₀ : ∀ x ∈ l₀, x < B := fun x hx => hds x (List.mem_append.mpr (Or.inl hx))
    rw [baseVal_append, baseVal_singleton, List.length_singleton, pow_one, baseDigits]
    have hdiv : (baseVal B l₀ * B + d) / B = baseVal B l₀ := by
      rw [mul_comm, Nat.mul_add_div hB]
      simp [Nat.div_eq_of_lt hd]
    have hmod : (baseVal B l₀ * B + d) % B = d := by
      rw [mul_comm, Nat.mul_add_mod]
      exact Nat.mod_eq_of_lt hd
    rw [hdiv, hmod, ih l₀ hlen0 hl₀]

/-- The RFC-4648 base32 alphabet. -/
def b32Alphabet : List Char :=
  ['A', 'B', 'C', 'D', 'E', 'F', 'G', 'H', 'I', 'J', 'K', 'L', 'M',
   'N', 'O', 'P', 'Q', 'R', 'S', 'T', 'U', 'V', 'W', 'X', 'Y', 'Z',
   '2', '3', '4', '5', '6', '7']

def b32Val (c : Char) : Option ℕ :=
  if b32Alphabet.indexOf c < 32 then some (b32Alphabet.indexOf c) else none

def b32Char (v : ℕ) : Char := b32Alphabet.getD v 'A'

theorem b32Val_b32Char : ∀ v : Fin 32, b32Val (b32Char (v : ℕ)) = some (v : ℕ) := by
  decide

theorem b32Val_some {c : Char} {v : ℕ} (h : b32Val c = some v) :
    v < 32 ∧ b32Char v = c := by
  unfold b32Val at h
  split_ifs at h with hlt
  · have hv : v = b32Alphabet.indexOf c := by
      exact (Option.some.injEq _ _).mp h.symm
    subst hv
    refine ⟨hlt, ?_⟩
    have hlen : b32Alphabet.indexOf c < b32Alphabet.length := by
      have : b32Alphabet.length = 32 := by decide
      omega
    rw [b32Char, List.getD_eq_get _ _ hlen]
    exact List.indexOf_get hlen

/-- One CRC16-XModem bit step (polynomial 0x1021). -/
def crcRound (crc : ℕ) : ℕ :=
  if crc &&& 32768 ≠ 0 then ((crc <<< 1) ^^^ 4129) &&& 65535
  else (crc <<< 1) &&& 65535

def crcBits : ℕ → ℕ → ℕ
  | 0, crc => crc
  | k + 1, crc => crcBits k (crcRound crc)

/-- CRC16-XModem of a byte list (initial value 0). -/
def crc16 (l : List ℕ) : ℕ := l.foldl (fun crc b => crcBits 8 (crc ^^^ (b <<< 8))) 0

theorem crcRound_lt (c : ℕ) : crcRound c < 65536 := by
  unfold crcRound
  split_ifs <;> exact Nat.lt_succ_of_le Nat.and_le_right

theorem crcBits_lt (c : ℕ) : ∀ k, 1 ≤ k → crcBits k c < 65536 := by
  intro k
  induction k generalizing c with
  | zero => omega
  | succ k ih =>
    intro _
    rw [crcBits]
    rcases Nat.eq_zero_or_pos k with h | h
    · subst h; exact crcRound_lt c
    · exact ih (crcRound c) h

theorem crc16_lt (l : List ℕ) : crc16 l < 65536 := by
  rw [crc16]
  have hstep : ∀ (l : List ℕ) (a : ℕ), a < 65536 →
      l.foldl (fun crc b => crcBits 8 (crc ^^^ (b <<< 8))) a < 65536 := by
    intro l
    induction l with
    | nil => intro a ha; exact ha
    | cons b tl ih =>
      intro a _
      exact ih _ (crcBits_lt _ 8 (by norm_num))
  exact hstep l 0 (by norm_num)

/-- The 35 strkey bytes of an ed25519 public key: version byte 48 (`'G'`),
the key, and the CRC16-XModem checksum appended little-endian. -/
def strkeyBytes (key : List ℕ) : List ℕ :=
  (48 :: key) ++ [crc16 (48 :: key) % 256, crc16 (48 :: key) / 256]

theorem string_data_mk (l : List Char) : (String.mk l).data = l := rfl

/-- The 56 strkey characters of a 32-byte public key. -/
def encodeChars (key : List ℕ) : List Char :=
  (baseDigits 32 56 (baseVal 256 (strkeyBytes key))).map b32Char

/-- strkey encoding of a 32-byte public key. -/
def encodePublicKey (key : List ℕ) : String := String.mk (encodeChars key)

/-- The decoded base32 digit values of a candidate strkey string. -/
def decodeVals (s : String) : List ℕ := s.data.map (fun c => (b32Val c).getD 0)

/-- Version-byte and checksum verification on the 35 decoded bytes, returning
the 32 key bytes. -/
def decodeBytesCheck (bytes : List ℕ) : Option (List ℕ) :=
  if bytes.headD 0 = 48 ∧
      bytes.drop 33 = [crc16 (bytes.take 33) % 256, crc16 (bytes.take 33) / 256] then
    some ((bytes.drop 1).take 32)
  else none

/-- strkey decoding: 56 base32 characters whose 35 decoded bytes carry
version byte 48 and a valid checksum; returns the 32 key bytes. -/
def decodePublicKey (s : String) : Option (List ℕ) :=
  if s.data.length = 56 ∧ s.data.all (fun c => (b32Val c).isSome) then
    decodeBytesCheck (baseDigits 256 35 (baseVal 32 (decodeVals s)))
  else none

theorem b32Val_b32Char' {v : ℕ} (h : v < 32) : b32Val (b32Char v) = some v :=
  b32Val_b32Char ⟨v, h⟩

theorem map_b32_roundtrip {ds : List ℕ} (h : ∀ d ∈ ds, d < 32) :
    (ds.map b32Char).map (fun c => (b32Val c).getD 0) = ds := by
  rw [List.map_map]
  have hpt : ∀ v ∈ ds, ((fun c => (b32Val c).getD 0) ∘ b32Char) v = id v := by
    intro v hv
    simp only [Function.comp_apply, id_eq]
    rw [b32Val_b32Char' (h v hv)]
    rfl
  rw [List.map_congr_left hpt, List.map_id]

theorem map_b32_back {l : List Char} (h : ∀ c ∈ l, (b32Val c).isSome = true) :
    (l.map (fun c => (b32Val c).getD 0)).map b32Char = l := by
  rw [List.map_map]
  have hpt : ∀ c ∈ l, (b32Char ∘ fun c => (b32Val c).getD 0) c = id c := by
    intro c hc
    obtain ⟨v, hv⟩ := Option.isSome_iff_exists.mp (h c hc)
    simp only [Function.comp_apply, id_eq, hv, Option.getD_some]
    exact (b32Val_some hv).2
  rw [List.map_congr_left hpt, List.map_id]

theorem strkeyBytes_length {key : List ℕ} (h : key.length = 32) :
    (strkeyBytes key).length = 35 := by
  simp [strkeyBytes, h]

theorem strkeyBytes_lt {key : List ℕ} (hk : ∀ b ∈ key, b < 256) :
    ∀ b ∈ strkeyBytes key, b < 256 := by
  intro b hb
  have hcrc := crc16_lt (48 :: key)
  rcases List.mem_append.mp hb with h | h
  · rcases List.mem_cons.mp h with h | h
    · omega
    · exact hk b h
  · rcases List.mem_cons.mp h with h | h
    · subst h; exact Nat.mod_lt _ (by norm_num)
    · rw [List.mem_singleton.mp h]; omega

theorem pow256_35_eq : (256 : ℕ) ^ 35 = 32 ^ 56 := by
  rw [show (256 : ℕ) = 2 ^ 8 by norm_num, show (32 : ℕ) = 2 ^ 5 by norm_num,
    ← pow_mul, ← pow_mul]

theorem decodeBytesCheck_strkey {key : List ℕ} (hlen : key.length = 32) :
    decodeBytesCheck (strkeyBytes key) = some key := by
  have h33 : (48 :: key).length = 33 := by simp [hlen]
  have htake : (strkeyBytes key).take 33 = 48 :: key := by
    rw [strkeyBytes, ← h33, List.take_left]
  have hdrop : (strkeyBytes key).drop 33 =
      [crc16 (48 :: key) % 256, crc16 (48 :: key) / 256] := by
    rw [strkeyBytes, ← h33, List.drop_left]
  have hhead : (strkeyBytes key).headD 0 = 48 := by
    rw [strkeyBytes, List.cons_append]
    rfl
  rw [decodeBytesCheck, if_pos ⟨hhead, by rw [hdrop, htake]⟩]
  have hres : ((strkeyBytes key).drop 1).take 32 = key := by
    rw [strkeyBytes, List.cons_append]
    show (key ++ [crc16 (48 :: key) % 256, crc16 (48 :: key) / 256]).take 32 = key
    rw [← hlen, List.take_left]
  rw [hres]

theorem decodeBytesCheck_some {bytes key : List ℕ} (h : decodeBytesCheck bytes = some key)
    (hblen : bytes.length = 35) :
    key.length = 32 ∧ (∀ b ∈ bytes, b < 256 → True) ∧ bytes = strkeyBytes key := by
  unfold decodeBytesCheck at h
  by_cases h2 : bytes.headD 0 = 48 ∧
      bytes.drop 33 = [crc16 (bytes.take 33) % 256, crc16 (bytes.take 33) / 256]
  swap
  · rw [if_neg h2] at h; exact Option.noConfusion h
  rw [if_pos h2] at h
  have hkey : (bytes.drop 1).take 32 = key := Option.some.inj h
  obtain ⟨b0, t, hbt⟩ : ∃ b0 t, bytes = b0 :: t := by
    cases hby : bytes with
    | nil => rw [hby] at hblen; simp at hblen
    | cons a l => exact ⟨a, l, rfl⟩
  have hb0 : b0 = 48 := by
    have := h2.1
    rw [hbt] at this
    exact this
  have htlen : t.length = 34 := by
    rw [hbt] at hblen; simp at hblen; omega
  have hkey2 : t.take 32 = key := by
    rw [hbt] at hkey
    exact hkey
  have hkeylen : key.length = 32 := by
    rw [← hkey2, List.length_take]
    omega
  have hsplit : bytes = (48 :: key) ++ t.drop 32 := by
    rw [hbt, hb0, ← hkey2, List.cons_append, List.take_append_drop]
  have h33 : (48 :: key).length = 33 := by simp [hkeylen]
  have htake33 : bytes.take 33 = 48 :: key := by
    rw [hsplit, ← h33, List.take_left]
  have hdrop33 : bytes.drop 33 = t.drop 32 := by
    rw [hsplit, ← h33, List.drop_left]
  have hck : t.drop 32 = [crc16 (48 :: key) % 256, crc16 (48 :: key) / 256] := by
    rw [← hdrop33, h2.2, htake33]
  refine ⟨hkeylen, fun _ _ _ => trivial, ?_⟩
  rw [hsplit, hck, strkeyBytes]

/-- Decoding inverts encoding on well-formed 32-byte keys. -/
theorem decodePublicKey_encode {key : List ℕ} (hlen : key.length = 32)
    (hk : ∀ b ∈ key, b < 256) : decodePublicKey (encodePublicKey key) = some key := by
  have hsb_len : (strkeyBytes key).length = 35 := strkeyBytes_length hlen
  have hsb_lt := strkeyBytes_lt hk
  have hN₀lt : baseVal 256 (strkeyBytes key) < 256 ^ 35 := by
    have := baseVal_lt 256 (by norm_num) (strkeyBytes key) hsb_lt
    rwa [hsb_len] at this
  have hN₀lt' : baseVal 256 (strkeyBytes key) < 32 ^ 56 := by
    rwa [pow256_35_eq] at hN₀lt
  have hds_len : (baseDigits 32 56 (baseVal 256 (strkeyBytes key))).length = 56 :=
    baseDigits_length _ _ _
  have hds_lt := baseDigits_lt 32 (by norm_num) 56 (baseVal 256 (strkeyBytes key))
  have hdata : (encodePublicKey key).data = encodeChars key := by
    rw [show encodePublicKey key = String.mk (encodeChars key) from rfl, string_data_mk]
  have hchars : encodeChars key =
      (baseDigits 32 56 (baseVal 256 (strkeyBytes key))).map b32Char := by
    rw [encodeChars]
  have hlen56 : (encodePublicKey key).data.length = 56 := by
    rw [hdata, hchars, List.length_map]; exact hds_len
  have hall : (encodePublicKey key).data.all (fun c => (b32Val c).isSome) = true := by
    rw [hdata, hchars, List.all_eq_true]
    intro c hc
    obtain ⟨v, hv, hvc⟩ := List.mem_map.mp hc
    rw [← hvc, b32Val_b32Char' (hds_lt v hv)]
    rfl
  have hvals : decodeVals (encodePublicKey key) =
      baseDigits 32 56 (baseVal 256 (strkeyBytes key)) := by
    rw [decodeVals, hdata, hchars]
    exact map_b32_roundtrip hds_lt
  have hN : baseVal 32 (baseDigits 32 56 (baseVal 256 (strkeyBytes key))) =
      baseVal 256 (strkeyBytes key) := by
    rw [baseVal_baseDigits 32 (by norm_num)]
    exact Nat.mod_eq_of_lt hN₀lt'
  have hbytes : baseDigits 256 35 (baseVal 256 (strkeyBytes key)) = strkeyBytes key :=
    baseDigits_baseVal 256 (by norm_num) 35 (strkeyBytes key) hsb_len hsb_lt
  rw [decodePublicKey, if_pos ⟨hlen56, hall⟩, hvals, hN, hbytes]
  exact decodeBytesCheck_strkey hlen

/-- Every successfully decoded string is the encoding of its (well-formed)
key. -/
theorem encode_of_decodePublicKey {s : String} {key : List ℕ}
    (h : decodePublicKey s = some key) :
    key.length = 32 ∧ (∀ b ∈ key, b < 256) ∧ encodePublicKey key = s := by
  unfold decodePublicKey at h
  by_cases h1 : s.data.length = 56 ∧ s.data.all (fun c => (b32Val c).isSome)
  swap
  · rw [if_neg h1] at h; exact Option.noConfusion h
  rw [if_pos h1] at h
  obtain ⟨hlen, hall⟩ := h1
  have hblen : (baseDigits 256 35 (baseVal 32 (decodeVals s))).length = 35 :=
    baseDigits_length _ _ _
  have hblt := baseDigits_lt 256 (by norm_num) 35 (baseVal 32 (decodeVals s))
  obtain ⟨hkeylen, _, hsb⟩ := decodeBytesCheck_some h hblen
  have hkeylt : ∀ b ∈ key, b < 256 := by
    intro b hb
    apply hblt
    rw [hsb, strkeyBytes, List.cons_append]
    exact List.mem_cons_of_mem _ (List.mem_append.mpr (Or.inl hb))
  have hvlen : (decodeVals s).length = 56 := by
    rw [decodeVals, List.length_map]; exact hlen
  have hvlt : ∀ v ∈ decodeVals s, v < 32 := by
    intro v hv
    rw [decodeVals] at hv
    obtain ⟨c, hc, hcv⟩ := List.mem_map.mp hv
    have hsome := List.all_eq_true.mp hall c hc
    obtain ⟨w, hw⟩ := Option.isSome_iff_exists.mp hsome
    rw [← hcv, hw]
    exact (b32Val_some hw).1
  have hNlt : baseVal 32 (decodeVals s) < 32 ^ 56 := by
    have := baseVal_lt 32 (by norm_num) (decodeVals s) hvlt
    rwa [hvlen] at this
  have hN2 : baseVal 256 (strkeyBytes key) = baseVal 32 (decodeVals s) := by
    rw [← hsb, baseVal_baseDigits 256 (by norm_num)]
    exact Nat.mod_eq_of_lt (pow256_35_eq ▸ hNlt)
  have hvals_back : baseDigits 32 56 (baseVal 32 (decodeVals s)) = decodeVals s :=
    baseDigits_baseVal 32 (by norm_num) 56 (decodeVals s) hvlen hvlt
  have hmap : (decodeVals s).map b32Char = s.data := by
    rw [decodeVals]
    exact map_b32_back (fun c hc => List.all_eq_true.mp hall c hc)
  refine ⟨hkeylen, hkeylt, ?_⟩
  rw [encodePublicKey, encodeChars, hN2, hvals_back, hmap]

/-! ### Reduction lemmas for the parser -/

theorem isDigitC_toNat {c : Char} (h : isDigitC c = true) :
    48 ≤ c.toNat ∧ c.toNat ≤ 57 := by
  simpa [isDigitC, Bool.and_eq_true, decide_eq_true_eq] using h

theorem isDigitC_ne {c d : Char} (h : isDigitC c = true)
    (hd : d.toNat < 48 ∨ 57 < d.toNat) : c ≠ d := by
  intro hc
  have := isDigitC_toNat h
  subst hc
  omega

theorem isDigitC_not_ws {c : Char} (h : isDigitC c = true) : isWS c = false := by
  have hc := isDigitC_toNat h
  by_contra hcon
  have h2 : isWS c = true := by revert hcon; cases isWS c <;> simp
  rw [isWS] at h2
  simp only [Bool.or_eq_true, decide_eq_true_eq] at h2
  rcases h2 with ((((h1 | h1) | h1) | h1) | h1) | h1 <;> subst h1 <;>
    exact absurd hc (by decide)

theorem takeWhile_all_append {p : Char → Bool} {l₁ : List Char} (l₂ : List Char)
    (h : ∀ c ∈ l₁, p c = true) :
    (l₁ ++ l₂).takeWhile p = l₁ ++ l₂.takeWhile p := by
  induction l₁ with
  | nil => simp
  | cons c tl ih =>
    rw [List.cons_append, List.takeWhile_cons_of_pos (h c (List.mem_cons_self c tl)),
      ih (fun x hx => h x (List.mem_cons_of_mem c hx)), List.cons_append]

theorem dropWhile_all_append {p : Char → Bool} {l₁ : List Char} (l₂ : List Char)
    (h : ∀ c ∈ l₁, p c = true) :
    (l₁ ++ l₂).dropWhile p = l₂.dropWhile p := by
  induction l₁ with
  | nil => simp
  | cons c tl ih =>
    rw [List.cons_append, List.dropWhile_cons_of_pos (h c (List.mem_cons_self c tl)),
      ih (fun x hx => h x (List.mem_cons_of_mem c hx))]

theorem takeWhile_all {p : Char → Bool} {l : List Char} (h : ∀ c ∈ l, p c = true) :
    l.takeWhile p = l := by
  have := @takeWhile_all_append p l [] h
  simpa using this

theorem dropWhile_all {p : Char → Bool} {l : List Char} (h : ∀ c ∈ l, p c = true) :
    l.dropWhile p = [] := by
  have := @dropWhile_all_append p l [] h
  simpa using this

theorem qpow10_zero : qpow10 0 = 1 := rfl

theorem qpow10_natCast (n : ℕ) : qpow10 (n : ℤ) = (10 : ℚ) ^ n := by
  rw [qpow10, zpow_natCast]

/-- `parseUnsigned` on a digit-headed list with a decimal point. -/
theorem parseUnsigned_dotted {l₁ rest : List Char}
    (h₁ : ∀ c ∈ l₁, isDigitC c = true) (hne : l₁ ≠ []) :
    parseUnsigned (l₁ ++ '.' :: rest) =
      .finLit (((valBE l₁ : ℚ) +
        (valBE (rest.takeWhile isDigitC) : ℚ) / 10 ^ (rest.takeWhile isDigitC).length) *
        qpow10 (expVal (rest.dropWhile isDigitC))) := by
  obtain ⟨c, l₁', rfl⟩ := List.exists_cons_of_ne_nil hne
  have hc : isDigitC c = true := h₁ c (List.mem_cons_self c l₁')
  have hinf : ¬ ((c :: l₁') ++ '.' :: rest).take 8 = infinityChars := by
    rw [List.cons_append, List.take_succ_cons]
    intro hcon
    have : c = 'I' := (List.cons.injEq _ _ _ _).mp hcon |>.1
    exact isDigitC_ne hc (by decide) this
  rw [parseUnsigned, if_neg hinf]
  have hdrop : ((c :: l₁') ++ '.' :: rest).dropWhile isDigitC = '.' :: rest := by
    rw [dropWhile_all_append _ h₁, List.dropWhile_cons_of_neg (by decide)]
  have htake : ((c :: l₁') ++ '.' :: rest).takeWhile isDigitC = c :: l₁' := by
    rw [takeWhile_all_append _ h₁, List.takeWhile_cons_of_neg (by decide), List.append_nil]
  rw [hdrop, htake]
  split
  · rename_i r2 heq
    have hr2 : rest = r2 := ((List.cons.injEq _ _ _ _).mp heq).2
    subst hr2
    rw [if_neg (by intro hcon; exact List.cons_ne_nil c l₁' hcon.1)]
  · rename_i hno
    exact absurd rfl (hno rest)

/-- `parseUnsigned` on a digit-headed list whose digits run out at a
non-digit, non-dot continuation (or at the end). -/
theorem parseUnsigned_plain {l₁ rest : List Char}
    (h₁ : ∀ c ∈ l₁, isDigitC c = true) (hne : l₁ ≠ [])
    (hrest : ∀ hd tl, rest = hd :: tl → isDigitC hd = false ∧ hd ≠ '.') :
    parseUnsigned (l₁ ++ rest) =
      .finLit ((valBE l₁ : ℚ) * qpow10 (expVal rest)) := by
  obtain ⟨c, l₁', rfl⟩ := List.exists_cons_of_ne_nil hne
  have hc : isDigitC c = true := h₁ c (List.mem_cons_self c l₁')
  have hinf : ¬ ((c :: l₁') ++ rest).take 8 = infinityChars := by
    rw [List.cons_append, List.take_succ_cons]
    intro hcon
    have : c = 'I' := (List.cons.injEq _ _ _ _).mp hcon |>.1
    exact isDigitC_ne hc (by decide) this
  rw [parseUnsigned, if_neg hinf]
  have hdroprest : rest.dropWhile isDigitC = rest := by
    cases hr : rest with
    | nil => rfl
    | cons hd tl => exact List.dropWhile_cons_of_neg (by simp [(hrest hd tl hr).1])
  have hdrop : ((c :: l₁') ++ rest).dropWhile isDigitC = rest := by
    rw [dropWhile_all_append _ h₁, hdroprest]
  have htake : ((c :: l₁') ++ rest).takeWhile isDigitC = c :: l₁' := by
    rw [takeWhile_all_append _ h₁]
    cases hr : rest with
    | nil => simp
    | cons hd tl =>
      rw [List.takeWhile_cons_of_neg (by simp [(hrest hd tl hr).1]), List.append_nil]
  rw [hdrop, htake]
  split
  · rename_i r2
    exact absurd rfl ((hrest '.' r2 rfl).2)
  · rw [if_neg (by intro hcon; exact List.cons_ne_nil c l₁' hcon)]

theorem applySign_false_fin (q : ℚ) :
    applySign false (.finLit q) = roundDouble q := rfl

/-- `parseFloat` on a string starting with a digit takes the unsigned path. -/
theorem parseFloat_digit_head {s : String} {c : Char} {rest : List Char}
    (hs : s.data = c :: rest) (hc : isDigitC c = true) :
    parseFloat s = applySign false (parseUnsigned (c :: rest)) := by
  unfold parseFloat
  rw [hs, List.dropWhile_cons_of_neg (by simp [isDigitC_not_ws hc])]
  split
  · rename_i r heq
    exact absurd (((List.cons.injEq _ _ _ _).mp heq).1) (isDigitC_ne hc (by decide))
  · rename_i r heq
    exact absurd (((List.cons.injEq _ _ _ _).mp heq).1) (isDigitC_ne hc (by decide))
  · rfl

/-- Parsing a plain digit string. -/
theorem parseFloat_mk_digits {l : List Char} (h : ∀ c ∈ l, isDigitC c = true)
    (hne : l ≠ []) : parseFloat (String.mk l) = roundDouble (valBE l) := by
  obtain ⟨c, l', rfl⟩ := List.exists_cons_of_ne_nil hne
  rw [parseFloat_digit_head (string_data_mk _) (h c (List.mem_cons_self c l'))]
  have := @parseUnsigned_plain (c :: l') [] h hne (by intro hd tl hcon; exact absurd hcon (by simp))
  rw [List.append_nil] at this
  rw [this, applySign_false_fin]
  congr 1
  show (valBE (c :: l') : ℚ) * qpow10 (expVal []) = (valBE (c :: l') : ℚ)
  rw [show expVal [] = 0 from rfl, qpow10_zero, mul_one]

/-- Parsing a fixed-point digit string `l₁.l₂`. -/
theorem parseFloat_mk_fixed {l₁ l₂ : List Char}
    (h₁ : ∀ c ∈ l₁, isDigitC c = true) (h₂ : ∀ c ∈ l₂, isDigitC c = true)
    (hne : l₁ ≠ []) :
    parseFloat (String.mk (l₁ ++ '.' :: l₂)) =
      roundDouble ((valBE l₁ : ℚ) + (valBE l₂ : ℚ) / 10 ^ l₂.length) := by
  obtain ⟨c, l₁', rfl⟩ := List.exists_cons_of_ne_nil hne
  have hdata : (String.mk ((c :: l₁') ++ '.' :: l₂)).data = c :: (l₁' ++ '.' :: l₂) := by
    rw [string_data_mk, List.cons_append]
  rw [parseFloat_digit_head hdata (h₁ c (List.mem_cons_self c l₁')), ← List.cons_append]
  rw [parseUnsigned_dotted h₁ hne, applySign_false_fin]
  congr 1
  rw [takeWhile_all h₂, dropWhile_all h₂]
  rw [show expVal [] = 0 from rfl, qpow10_zero, mul_one]

theorem expVal_eplus {ex : List Char} (h : ∀ c ∈ ex, isDigitC c = true)
    (hne : ex ≠ []) : expVal ('e' :: '+' :: ex) = (valBE ex : ℤ) := by
  show (if ('e' : Char) = 'e' ∨ ('e' : Char) = 'E' then
      if ex.takeWhile isDigitC = [] then 0 else (valBE (ex.takeWhile isDigitC) : ℤ)
    else 0) = (valBE ex : ℤ)
  rw [if_pos (Or.inl rfl), takeWhile_all h, if_neg hne]

/-- Parsing scientific notation with a single mantissa digit: `de+NN`. -/
theorem parseFloat_mk_sci1 {d : Char} {ex : List Char} (hd : isDigitC d = true)
    (hex : ∀ c ∈ ex, isDigitC c = true) (hexne : ex ≠ []) :
    parseFloat (String.mk (d :: 'e' :: '+' :: ex)) =
      roundDouble ((digitVal d : ℚ) * (10 : ℚ) ^ valBE ex) := by
  rw [parseFloat_digit_head (string_data_mk _) hd]
  have hplain := @parseUnsigned_plain [d] ('e' :: '+' :: ex)
    (by intro x hx; rw [List.mem_singleton.mp hx]; exact hd)
    (by simp)
    (by intro hd' tl hcon
        have h1 : hd' = 'e' := ((List.cons.injEq _ _ _ _).mp hcon).1.symm
        subst h1
        exact ⟨by decide, by decide⟩)
  rw [List.singleton_append] at hplain
  rw [hplain, applySign_false_fin]
  congr 1
  rw [expVal_eplus hex hexne, valBE_singleton, qpow10_natCast]

/-- Parsing scientific notation with a fraction: `d.ffffe+NN`. -/
theorem parseFloat_mk_sci {d : Char} {frac ex : List Char} (hd : isDigitC d = true)
    (hfrac : ∀ c ∈ frac, isDigitC c = true)
    (hex : ∀ c ∈ ex, isDigitC c = true) (hexne : ex ≠ []) :
    parseFloat (String.mk (d :: '.' :: (frac ++ 'e' :: '+' :: ex))) =
      roundDouble (((digitVal d : ℚ) + (valBE frac : ℚ) / 10 ^ frac.length) *
        (10 : ℚ) ^ valBE ex) := by
  rw [parseFloat_digit_head (string_data_mk _) hd]
  have hcons : (d :: '.' :: (frac ++ 'e' :: '+' :: ex) : List Char) =
      [d] ++ '.' :: (frac ++ 'e' :: '+' :: ex) := by simp
  rw [hcons, @parseUnsigned_dotted [d] (frac ++ 'e' :: '+' :: ex)
    (by intro x hx; rw [List.mem_singleton.mp hx]; exact hd) (by simp), applySign_false_fin]
  congr 1
  have htw : (frac ++ 'e' :: '+' :: ex).takeWhile isDigitC = frac := by
    rw [takeWhile_all_append _ hfrac, List.takeWhile_cons_of_neg (by decide), List.append_nil]
  have hdw : (frac ++ 'e' :: '+' :: ex).dropWhile isDigitC = 'e' :: '+' :: ex := by
    rw [dropWhile_all_append _ hfrac, List.dropWhile_cons_of_neg (by decide)]
  rw [htw, hdw, expVal_eplus hex hexne, valBE_singleton, qpow10_natCast]

/-! ### `toFixed(7)` / `toString` round-trip lemmas -/

/-- Parsing back the `toFixed(7)` output recovers the rounding of `n/10^7`. -/
theorem parseFloat_fixedString7 (n : ℕ) :
    parseFloat (fixedString7 n) = roundDouble ((n : ℚ) / 10 ^ 7) := by
  rw [fixedString7,
    parseFloat_mk_fixed (natChars_digits _) (fracChars_digits _) (natChars_ne_nil _)]
  congr 1
  rw [valBE_natChars, valBE_fracChars, fracChars_len (Nat.mod_lt n (by norm_num))]
  have hq : ((10 ^ 7 : ℕ) : ℚ) * ((n / 10 ^ 7 : ℕ) : ℚ) + ((n % 10 ^ 7 : ℕ) : ℚ) = (n : ℚ) := by
    exact_mod_cast congrArg (Nat.cast : ℕ → ℚ) (Nat.div_add_mod n (10 ^ 7))
  have h7 : ((10 ^ 7 : ℕ) : ℚ) = (10 : ℚ) ^ 7 := by push_cast; ring
  rw [h7] at hq
  have hne : ((10 : ℚ) ^ 7) ≠ 0 := by positivity
  field_simp
  linarith

theorem jsToFixed7_fin_small {q : ℚ} (h0 : 0 ≤ q) (h21 : q < 10 ^ 21) :
    jsToFixed7 (.fin q) = fixedString7 (⌊q * 10 ^ 7 + 1 / 2⌋).toNat := by
  simp only [jsToFixed7]
  rw [if_neg (not_lt.mpr h0), if_neg (not_le.mpr h21)]

theorem jsToFixed7_fin_big {q : ℚ} (h21 : 10 ^ 21 ≤ q) :
    jsToFixed7 (.fin q) = jsBigToString q := by
  have h0 : (0 : ℚ) ≤ q := le_trans (by norm_num) h21
  simp only [jsToFixed7]
  rw [if_neg (not_lt.mpr h0), if_pos h21]

theorem sciOk_true {n D k s : ℕ} (h : sciOk n D k s = true) :
    10 ^ (k - 1) ≤ s ∧ s < 10 ^ k ∧
      roundDouble ((s * 10 ^ (D - k) : ℕ) : ℚ) = .fin (n : ℚ) := by
  simpa [sciOk, Bool.and_eq_true, decide_eq_true_eq, and_assoc] using h

theorem sciPick_some {n D k s : ℕ} (h : sciPick n D k = some s) :
    10 ^ (k - 1) ≤ s ∧ s < 10 ^ k ∧
      roundDouble ((s * 10 ^ (D - k) : ℕ) : ℚ) = .fin (n : ℚ) := by
  unfold sciPick at h
  split_ifs at h with h1 h2 h3 h4 h5 h6 <;>
    first
    | exact sciOk_true (by
        rw [Bool.and_eq_true] at h1
        rw [← Option.some.inj h]
        first | exact h1.1 | exact h1.2)
    | exact Option.noConfusion h
    | (rw [← Option.some.inj h]; exact sciOk_true (by assumption))

theorem sciFrom_some {n D : ℕ} :
    ∀ (fuel k₀ k s : ℕ), sciFrom n D k₀ fuel = some (k, s) →
      sciPick n D k = some s ∧ k₀ ≤ k ∧ k < k₀ + fuel := by
  intro fuel
  induction fuel with
  | zero => intro k₀ k s h; exact Option.noConfusion h
  | succ fuel ih =>
    intro k₀ k s h
    rw [sciFrom] at h
    cases hp : sciPick n D k₀ with
    | some s' =>
      rw [hp] at h
      have := Option.some.inj h
      have hk : k₀ = k := congrArg Prod.fst this
      have hs : s' = s := congrArg Prod.snd this
      subst hk; subst hs
      exact ⟨hp, le_refl _, by omega⟩
    | none =>
      rw [hp] at h
      obtain ⟨ha, hb, hc⟩ := ih (k₀ + 1) k s h
      exact ⟨ha, by omega, by omega⟩

theorem digitsLE_ne_nil {s : ℕ} (h : s ≠ 0) : digitsLE s s ≠ [] := by
  cases s with
  | zero => exact absurd rfl h
  | succ m => simp [digitsLE]

/-- The digit-character list of a `k`-digit mantissa `s`. -/
theorem mantissa_chars {s k : ℕ} (h1 : 10 ^ (k - 1) ≤ s) (h2 : s < 10 ^ k) (hk : 1 ≤ k) :
    ((digitsLE s s).reverse.map digitCharOf).length = k ∧
      valBE ((digitsLE s s).reverse.map digitCharOf) = s ∧
      (∀ c ∈ (digitsLE s s).reverse.map digitCharOf, isDigitC c = true) ∧
      (digitsLE s s).reverse.map digitCharOf ≠ [] := by
  have hs0 : s ≠ 0 := by
    intro hcon
    rw [hcon] at h1
    have : (0 : ℕ) < 10 ^ (k - 1) := pow_pos (by norm_num) _
    omega
  have hlen_le : (digitsLE s s).length ≤ k := digitsLE_len_le s s k h2
  have hlt := digitsLE_lt s s le_rfl
  have hlen_ge : k ≤ (digitsLE s s).length := by
    by_contra hcon
    push_neg at hcon
    have h3 : (digitsLE s s).length ≤ k - 1 := by omega
    have h4 : (10 : ℕ) ^ (digitsLE s s).length ≤ 10 ^ (k - 1) :=
      Nat.pow_le_pow_right (by norm_num) h3
    exact lt_irrefl s (lt_of_lt_of_le (lt_of_lt_of_le hlt h4) h1)
  refine ⟨?_, valBE_digitsLE s s le_rfl, ?_, ?_⟩
  · rw [List.length_map, List.length_reverse]; omega
  · intro c hc
    obtain ⟨d, hd, hdc⟩ := List.mem_map.mp hc
    rw [← hdc]
    exact isDigitC_digitCharOf (digitsLE_lt_base s s d (List.mem_reverse.mp hd))
  · intro hcon
    have h5 := congrArg List.length hcon
    rw [List.length_map, List.length_reverse, List.length_nil] at h5
    omega

/-- Parsing back the scientific-notation output of the `toString` search. -/
theorem parseFloat_sciChars {s k D : ℕ} (h1 : 10 ^ (k - 1) ≤ s) (h2 : s < 10 ^ k)
    (hk : 1 ≤ k) (hkD : k ≤ D) (hD : 2 ≤ D) :
    parseFloat (String.mk (sciChars s D)) = roundDouble ((s * 10 ^ (D - k) : ℕ) : ℚ) := by
  obtain ⟨hlen, hval, hdig, hne⟩ := mantissa_chars h1 h2 hk
  obtain ⟨c, rest, hcr⟩ := List.exists_cons_of_ne_nil hne
  have hc : isDigitC c = true := hdig c (by rw [hcr]; exact List.mem_cons_self c rest)
  have hrest : ∀ x ∈ rest, isDigitC x = true := fun x hx =>
    hdig x (by rw [hcr]; exact List.mem_cons_of_mem c hx)
  have hvalcr : digitVal c * 10 ^ rest.length + valBE rest = s := by
    have hv : valBE (c :: rest) = s := by rw [← hcr]; exact hval
    rw [show (c :: rest : List Char) = [c] ++ rest from rfl, valBE_append,
      valBE_singleton] at hv
    exact hv
  have hrlen : rest.length = k - 1 := by
    have hl : (c :: rest).length = k := by rw [← hcr]; exact hlen
    simp at hl
    omega
  have hexdig : ∀ x ∈ natChars (D - 1), isDigitC x = true := natChars_digits _
  have hexne : natChars (D - 1) ≠ [] := natChars_ne_nil _
  have hexval : valBE (natChars (D - 1)) = D - 1 := valBE_natChars _
  rw [sciChars, hcr]
  change parseFloat (String.mk (if rest = [] then c :: 'e' :: '+' :: natChars (D - 1)
      else (c :: '.' :: rest) ++ ('e' :: '+' :: natChars (D - 1)))) = _
  by_cases hr : rest = []
  · rw [if_pos hr]
    subst hr
    rw [parseFloat_mk_sci1 hc hexdig hexne, hexval]
    have hk1 : k = 1 := by
      rw [List.length_nil] at hrlen
      omega
    congr 1
    subst hk1
    have hs : digitVal c = s := by simpa using hvalcr
    rw [hs]
    push_cast
    ring
  · rw [if_neg hr]
    rw [show ((c :: '.' :: rest) ++ 'e' :: '+' :: natChars (D - 1) : List Char) =
      c :: '.' :: (rest ++ 'e' :: '+' :: natChars (D - 1)) from by simp]
    rw [parseFloat_mk_sci hc hrest hexdig hexne, hexval]
    congr 1
    have hpow : (10 : ℚ) ^ (D - 1) = 10 ^ (k - 1) * 10 ^ (D - k) := by
      rw [← pow_add]
      congr 1
      omega
    rw [hrlen] at hvalcr ⊢
    have hcast : ((s * 10 ^ (D - k) : ℕ) : ℚ) =
        ((digitVal c : ℚ) * 10 ^ (k - 1) + (valBE rest : ℚ)) * 10 ^ (D - k) := by
      push_cast [← hvalcr]
      ring
    rw [hcast, hpow]
    have h10 : ((10 : ℚ) ^ (k - 1)) ≠ 0 := by positivity
    field_simp
    ring

theorem roundPos_le {q : ℚ} (hq : 0 < q) : roundPos q ≤ 2 * q + 1 := by
  have h1 := roundPos_err q
  have h2 : zpow2 (dscale q - 1) ≤ q + 1 := by
    rcases max_cases (qlog2 q - 52) (-1074 : ℤ) with ⟨hm, _⟩ | ⟨hm, _⟩
    · have hd : dscale q = qlog2 q - 52 := by rw [dscale, hm]
      have hle := (qlog2_spec hq).1
      calc zpow2 (dscale q - 1) ≤ zpow2 (qlog2 q) := zpow2_le_zpow2 (by omega)
        _ ≤ q := hle
        _ ≤ q + 1 := by linarith
    · have hd : dscale q = -1074 := by rw [dscale, hm]
      calc zpow2 (dscale q - 1) ≤ zpow2 0 := zpow2_le_zpow2 (by omega)
        _ = 1 := by rw [zpow2]; norm_num
        _ ≤ q + 1 := by linarith
  have h3 := abs_le.mp h1
  linarith [h3.1, h3.2]

/-- A representable value at least `10^21` is a natural number. -/
theorem reprD_big_natCast {x : ℚ} (hx : ReprD x) (h21 : 10 ^ 21 ≤ x) :
    ∃ n : ℕ, (n : ℚ) = x ∧ 10 ^ 21 ≤ n := by
  obtain ⟨m, t, hm, _, hxeq⟩ := hx
  have hxpos : (0 : ℚ) < x := lt_of_lt_of_le (by norm_num) h21
  have ht0 : 0 ≤ t := by
    by_contra hcon
    push_neg at hcon
    have hz : zpow2 t ≤ zpow2 (-1) := zpow2_le_zpow2 (by omega)
    have hmq : (m : ℚ) ≤ 2 ^ 53 := by
      have := (abs_le.mp hm).2
      exact_mod_cast this
    have hx_le : x ≤ 2 ^ 53 * zpow2 (-1) := by
      rw [hxeq]
      apply mul_le_mul hmq hz (le_of_lt (zpow2_pos t))
      norm_num
    have : zpow2 (-1) = 1 / 2 := by rw [zpow2]; norm_num
    rw [this] at hx_le
    norm_num at hx_le
    linarith
  have hm0 : 0 ≤ m := by
    by_contra hcon
    push_neg at hcon
    have : (m : ℚ) < 0 := by exact_mod_cast hcon
    have : x ≤ 0 := by
      rw [hxeq]
      apply mul_nonpos_of_nonpos_of_nonneg (le_of_lt this) (le_of_lt (zpow2_pos t))
    linarith
  obtain ⟨u, rfl⟩ : ∃ u : ℕ, t = (u : ℤ) := ⟨t.toNat, by omega⟩
  have hmm : ((m.toNat : ℕ) : ℚ) = (m : ℚ) := by
    exact_mod_cast Int.toNat_of_nonneg hm0
  have hcast : ((m.toNat * 2 ^ u : ℕ) : ℚ) = x := by
    rw [hxeq, zpow2, zpow_natCast]
    push_cast
    rw [hmm]
  refine ⟨m.toNat * 2 ^ u, hcast, ?_⟩
  have : ((10 ^ 21 : ℕ) : ℚ) ≤ ((m.toNat * 2 ^ u : ℕ) : ℚ) := by
    rw [hcast]
    calc ((10 ^ 21 : ℕ) : ℚ) = 10 ^ 21 := by push_cast; ring
      _ ≤ x := h21
  exact_mod_cast this

/-- Parsing back the `Number::toString` output of a big representable value
recovers the value exactly. -/
theorem parseFloat_jsBigToString {x : ℚ} (hx : ReprD x) (hb : |x| < zpow2 1024)
    (h21 : 10 ^ 21 ≤ x) : parseFloat (jsBigToString x) = .fin x := by
  obtain ⟨n, hnx, hn21⟩ := reprD_big_natCast hx h21
  have hnum : x.num.toNat = n := by
    rw [← hnx]
    simp
  have hrd : roundDouble ((n : ℚ)) = .fin x := by
    rw [hnx]
    exact roundDouble_fix hx hb
  rw [jsBigToString, hnum]
  have hD1 : n < 10 ^ (digitsLE n n).length := digitsLE_lt n n le_rfl
  have hD22 : 22 ≤ (digitsLE n n).length := by
    by_contra hcon
    push_neg at hcon
    have hle : (10 : ℕ) ^ (digitsLE n n).length ≤ 10 ^ 21 :=
      Nat.pow_le_pow_right (by norm_num) (by omega)
    omega
  cases hs : sciFrom n (digitsLE n n).length 1 17 with
  | none =>
    rw [parseFloat_mk_digits (natChars_digits n) (natChars_ne_nil n), valBE_natChars]
    exact hrd
  | some ks =>
    obtain ⟨k, s⟩ := ks
    obtain ⟨hpick, hk1, hk17⟩ := sciFrom_some 17 1 k s hs
    obtain ⟨hs1, hs2, hsrd⟩ := sciPick_some hpick
    show parseFloat (String.mk (sciChars s (digitsLE n n).length)) = .fin x
    rw [parseFloat_sciChars hs1 hs2 hk1 (by omega) (by omega), hsrd, hnx]

def IsDyadic (x : ℚ) : Prop := ∃ (a : ℤ) (k : ℕ), x = (a : ℚ) / 2 ^ k

theorem ReprD.isDyadic {x : ℚ} (hx : ReprD x) : IsDyadic x := by
  obtain ⟨m, t, _, _, hxeq⟩ := hx
  rcases le_or_lt 0 t with ht0 | ht0
  · obtain ⟨u, rfl⟩ : ∃ u : ℕ, t = (u : ℤ) := ⟨t.toNat, by omega⟩
    refine ⟨m * 2 ^ u, 0, ?_⟩
    rw [hxeq, zpow2, zpow_natCast]
    push_cast
    ring
  · obtain ⟨u, rfl⟩ : ∃ u : ℕ, t = -(u : ℤ) := ⟨(-t).toNat, by omega⟩
    refine ⟨m, u, ?_⟩
    rw [hxeq, zpow2, zpow_neg, zpow_natCast, div_eq_mul_inv]

theorem IsDyadic.sub {x y : ℚ} (hx : IsDyadic x) (hy : IsDyadic y) :
    IsDyadic (x - y) := by
  obtain ⟨a, j, rfl⟩ := hx
  obtain ⟨b, k, rfl⟩ := hy
  refine ⟨a * 2 ^ k - b * 2 ^ j, j + k, ?_⟩
  have h2j : ((2 : ℚ) ^ j) ≠ 0 := by positivity
  have h2k : ((2 : ℚ) ^ k) ≠ 0 := by positivity
  field_simp
  ring

theorem inv_ten7_not_dyadic : ¬ IsDyadic (1 / 10 ^ 7 : ℚ) := by
  rintro ⟨a, k, h⟩
  have h10 : ((10 : ℚ) ^ 7) ≠ 0 := by positivity
  have h2 : ((2 : ℚ) ^ k) ≠ 0 := by positivity
  rw [div_eq_div_iff h10 h2, one_mul] at h
  have hz : ((2 : ℤ) ^ k : ℤ) = a * 10 ^ 7 := by exact_mod_cast h
  have h5 : (5 : ℤ) ∣ 2 ^ k := ⟨a * (2 ^ 7 * 5 ^ 6), by rw [hz]; ring⟩
  have hp : Prime (5 : ℤ) := by norm_num
  have h52 := hp.dvd_of_dvd_pow h5
  norm_num at h52

/-- No binary64 value lies strictly between `10^21 - 2^17` and `10^21`. -/
theorem reprD_lt_pow10_21 {x : ℚ} (hx : ReprD x) (h : x < 10 ^ 21) :
    x ≤ 10 ^ 21 - 131072 := by
  obtain ⟨m, t, hm, ht, hxeq⟩ := hx
  rcases dyadic_split 17 (17 - t).toNat m t rfl hm with
    ⟨k, hk⟩ | ⟨m', t', hodd, hm', _, hts, hmt⟩
  · have hz : zpow2 17 = 131072 := by rw [zpow2]; norm_num
    have hx2 : x = (k : ℚ) * 131072 := by rw [hxeq, hk, hz]
    rw [hx2] at h ⊢
    have hkq : (k : ℚ) < 7629394531250000 := by linarith
    have hkz : k < 7629394531250000 := by exact_mod_cast hkq
    have hkz2 : k ≤ 7629394531249999 := by omega
    have hkq2 : (k : ℚ) ≤ 7629394531249999 := by exact_mod_cast hkz2
    nlinarith
  · have hx2 : x = (m' : ℚ) * zpow2 t' := by rw [hxeq, hmt]
    rcases le_or_lt m' 0 with hneg | hpos
    · have hxle : x ≤ 0 := by
        rw [hx2]
        apply mul_nonpos_of_nonpos_of_nonneg _ (le_of_lt (zpow2_pos t'))
        exact_mod_cast hneg
      norm_num
      linarith
    · have hm'le : (m' : ℚ) ≤ 2 ^ 53 - 1 := by
        have := (abs_le.mp hm').2
        exact_mod_cast this
      have hzle : zpow2 t' ≤ zpow2 16 := zpow2_le_zpow2 (by omega)
      have hz16 : zpow2 16 = 65536 := by rw [zpow2]; norm_num
      have hxle : x ≤ (2 ^ 53 - 1) * 65536 := by
        rw [hx2, ← hz16]
        apply mul_le_mul hm'le hzle (le_of_lt (zpow2_pos t'))
        norm_num
      norm_num at hxle ⊢
      linarith

theorem applySign_fin_props {b : Bool} {p : PFloat} {x : ℚ}
    (h : applySign b p = .fin x) : ReprD x ∧ |x| < zpow2 1024 := by
  cases p with
  | noLit => exact JsNum.noConfusion h
  | infLit => cases b <;> exact JsNum.noConfusion h
  | finLit q => exact ⟨reprD_of_roundDouble h, roundDouble_fin_lt h⟩

/-- Every finite `parseFloat` output is a representable binary64 value. -/
theorem parseFloat_fin_props {s : String} {x : ℚ}
    (h : parseFloat s = .fin x) : ReprD x ∧ |x| < zpow2 1024 := by
  rw [parseFloat] at h
  split at h <;> exact applySign_fin_props h

/-- Strings the payment-amount loop accepts parse to `+∞` or to a positive
finite value. -/
theorem validateAmount_payment_cases {s : String}
    (h : validateAmount s .payment = true) :
    parseFloat s = .posInf ∨ ∃ x : ℚ, parseFloat s = .fin x ∧ 0 < x := by
  simp only [validateAmount] at h
  cases hp : parseFloat s with
  | nan =>
    rw [hp, show jsIsNaN JsNum.nan = true from rfl] at h
    simp at h
  | negInf =>
    rw [hp, show jsIsNaN JsNum.negInf = false from rfl,
      show jsLe JsNum.negInf (JsNum.fin 0) = true from rfl] at h
    simp at h
  | posInf => exact Or.inl rfl
  | fin x =>
    rw [hp] at h
    refine Or.inr ⟨x, rfl, ?_⟩
    by_contra hcon
    push_neg at hcon
    rw [show jsIsNaN (JsNum.fin x) = false from rfl,
      show jsLe (JsNum.fin x) (JsNum.fin 0) = decide (x ≤ 0) from rfl,
      decide_eq_true hcon] at h
    simp at h

theorem parseFloat_infinity : parseFloat "Infinity" = .posInf := rfl

theorem floor_toNat_eq {z : ℚ} {n : ℕ} (h1 : (n : ℚ) ≤ z) (h2 : z < (n : ℚ) + 1) :
    (⌊z⌋).toNat = n := by
  have hfl : ⌊z⌋ = (n : ℤ) := by
    rw [Int.floor_eq_iff]
    exact ⟨by exact_mod_cast h1, by push_cast; exact h2⟩
  rw [hfl]
  simp

/-- The `toFixed(7)` integer `n` brackets `x·10^7 + 1/2` for positive `x`. -/
theorem toFixed_floor_window {x : ℚ} (h0 : 0 < x) :
    ((⌊x * 10 ^ 7 + 1 / 2⌋).toNat : ℚ) ≤ x * 10 ^ 7 + 1 / 2 ∧
      x * 10 ^ 7 + 1 / 2 < ((⌊x * 10 ^ 7 + 1 / 2⌋).toNat : ℚ) + 1 := by
  have hF0 : 0 ≤ ⌊x * 10 ^ 7 + 1 / 2⌋ := Int.floor_nonneg.mpr (by linarith)
  have hnF : ((⌊x * 10 ^ 7 + 1 / 2⌋).toNat : ℤ) = ⌊x * 10 ^ 7 + 1 / 2⌋ :=
    Int.toNat_of_nonneg hF0
  have hnQ : (((⌊x * 10 ^ 7 + 1 / 2⌋).toNat : ℕ) : ℚ) =
      ((⌊x * 10 ^ 7 + 1 / 2⌋ : ℤ) : ℚ) := by exact_mod_cast hnF
  constructor
  · rw [hnQ]
    exact Int.floor_le _
  · rw [hnQ]
    exact Int.lt_floor_add_one _

/-- Core of C7: for any binary64 value `x` with `0 < x < 10^21`, reformatting
the `toFixed(7)` string with numerator `n` reproduces it exactly. -/
theorem formatAmount_fixedString7 {x : ℚ} {n : ℕ} (hx : ReprD x)
    (hw1 : (n : ℚ) ≤ x * 10 ^ 7 + 1 / 2) (hw2 : x * 10 ^ 7 + 1 / 2 < (n : ℚ) + 1)
    (h0 : 0 < x) (h21 : x < 10 ^ 21) :
    formatAmount (fixedString7 n) = fixedString7 n := by
  rw [formatAmount, parseFloat_fixedString7]
  rcases Nat.eq_zero_or_pos n with hn0 | hnpos
  · subst hn0
    simp only [Nat.cast_zero, zero_div]
    have hrd : roundDouble 0 = .fin 0 := by simp [roundDouble]
    rw [hrd, jsToFixed7_fin_small le_rfl (by norm_num)]
    congr 1
    have hfz : ⌊(0 : ℚ) * 10 ^ 7 + 1 / 2⌋ = 0 := by
      rw [show (0 : ℚ) * 10 ^ 7 + 1 / 2 = 1 / 2 by ring, Int.floor_eq_iff]
      norm_num
    rw [hfz]
    rfl
  · generalize hqdef : ((n : ℚ) / 10 ^ 7 : ℚ) = q
    have h7 : ((10 : ℚ) ^ 7) ≠ 0 := by norm_num
    have hq7 : q * 10 ^ 7 = (n : ℚ) := by
      rw [← hqdef, div_mul_cancel₀ _ h7]
    have hnq : (0 : ℚ) < (n : ℚ) := by exact_mod_cast hnpos
    have hqpos : 0 < q := by
      rw [← hqdef]
      positivity
    have hql : q - x ≤ 1 / (2 * 10 ^ 7) := by
      have h1 : q * 10 ^ 7 - x * 10 ^ 7 ≤ 1 / 2 := by rw [hq7]; linarith
      linarith
    have hqh : x - q < 1 / (2 * 10 ^ 7) := by
      have h1 : x * 10 ^ 7 - q * 10 ^ 7 < 1 / 2 := by rw [hq7]; linarith
      linarith
    have hxc : x ≤ 10 ^ 21 - 131072 := reprD_lt_pow10_21 hx h21
    have hqlt : q < 10 ^ 21 := by linarith
    have hylt : roundPos q < zpow2 1024 := by
      calc roundPos q ≤ 2 * q + 1 := roundPos_le hqpos
        _ < 2 * 10 ^ 21 + 1 := by linarith
        _ ≤ zpow2 1024 := by
            rw [zpow2, show (1024 : ℤ) = ((1024 : ℕ) : ℤ) from rfl, zpow_natCast]
            norm_num
    have hrdq : roundDouble q = .fin (roundPos q) := by
      rw [roundDouble, if_neg (ne_of_gt hqpos), if_pos hqpos,
        if_neg (not_le.mpr hylt)]
    rw [hrdq]
    have hyRepr : ReprD (roundPos q) := roundPos_reprD hqpos
    have hynn : 0 ≤ roundPos q := roundPos_nonneg hqpos
    have hnear : |roundPos q - q| ≤ |x - q| := roundPos_nearest hqpos hx
    have habs : |x - q| ≤ 1 / (2 * 10 ^ 7) := abs_le.mpr ⟨by linarith, by linarith⟩
    have hyl : q - 1 / (2 * 10 ^ 7) ≤ roundPos q := by
      have h1 := (abs_le.mp (le_trans hnear habs)).1
      linarith
    have hyh : roundPos q < q + 1 / (2 * 10 ^ 7) := by
      by_contra hcon
      push_neg at hcon
      have h1 : roundPos q - q = 1 / (2 * 10 ^ 7) := by
        have h2 := le_trans hnear habs
        rw [abs_of_nonneg (by linarith : (0 : ℚ) ≤ roundPos q - q)] at h2
        linarith
      have h3 : 1 / (2 * 10 ^ 7) ≤ |x - q| := by
        have h4 := hnear
        rw [abs_of_nonneg (by linarith : (0 : ℚ) ≤ roundPos q - q), h1] at h4
        exact h4
      have h5 : |x - q| = 1 / (2 * 10 ^ 7) := le_antisymm habs h3
      have h6 : x - q = -(1 / (2 * 10 ^ 7)) := by
        rcases (abs_eq (by norm_num : (0 : ℚ) ≤ 1 / (2 * 10 ^ 7))).mp h5 with h6 | h6
        · exact absurd h6 (by linarith)
        · exact h6
      have h7d : roundPos q - x = 1 / 10 ^ 7 := by
        have heq : roundPos q - x = (roundPos q - q) - (x - q) := by ring
        rw [heq, h1, h6]
        norm_num
      exact inv_ten7_not_dyadic (h7d ▸ (hyRepr.isDyadic.sub hx.isDyadic))
    have hy21 : roundPos q < 10 ^ 21 := by linarith
    rw [jsToFixed7_fin_small hynn hy21]
    congr 1
    apply floor_toNat_eq
    · have h1 : q * 10 ^ 7 - roundPos q * 10 ^ 7 ≤ 1 / 2 := by
        have := mul_le_mul_of_nonneg_right hyl (by norm_num : (0 : ℚ) ≤ 10 ^ 7)
        rw [sub_mul] at this
        have hc : 1 / (2 * 10 ^ 7) * 10 ^ 7 = (1 / 2 : ℚ) := by norm_num
        linarith [this, hc ▸ this]
      linarith [hq7, h1]
    · have h1 : roundPos q * 10 ^ 7 - q * 10 ^ 7 < 1 / 2 := by
        have := mul_lt_mul_of_pos_right hyh (by norm_num : (0 : ℚ) < 10 ^ 7)
        rw [add_mul] at this
        have hc : 1 / (2 * 10 ^ 7) * 10 ^ 7 = (1 / 2 : ℚ) := by norm_num
        linarith [this, hc ▸ this]
      linarith [hq7, h1]

/-! ### Concrete-evaluation helpers -/

theorem qlog2_unique {q : ℚ} (hq : 0 < q) {e : ℤ} (h1 : zpow2 e ≤ q)
    (h2 : q < zpow2 (e + 1)) : qlog2 q = e := by
  have hs := qlog2_spec hq
  by_contra hne
  rcases lt_or_gt_of_ne hne with hlt | hgt
  · have hm : zpow2 (qlog2 q + 1) ≤ zpow2 e := zpow2_le_zpow2 (by omega)
    linarith [hs.2]
  · have hm : zpow2 (e + 1) ≤ zpow2 (qlog2 q) := zpow2_le_zpow2 (by omega)
    linarith [hs.1]

theorem rne_eq_of_lt {u : ℚ} {k : ℤ} (h1 : (k : ℚ) ≤ u) (h2 : u < (k : ℚ) + 1)
    (h3 : u - (k : ℚ) < 1 / 2) : rne u = k := by
  have hfl : ⌊u⌋ = k := Int.floor_eq_iff.mpr ⟨h1, h2⟩
  rw [rne, hfl, if_pos h3]

theorem rne_eq_of_gt {u : ℚ} {k : ℤ} (h1 : (k : ℚ) ≤ u) (h2 : u < (k : ℚ) + 1)
    (h3 : 1 / 2 < u - (k : ℚ)) : rne u = k + 1 := by
  have hfl : ⌊u⌋ = k := Int.floor_eq_iff.mpr ⟨h1, h2⟩
  rw [rne, hfl, if_neg (by linarith), if_pos h3]

theorem rne_eq_of_tie_even {u : ℚ} {k : ℤ} (h1 : (k : ℚ) ≤ u)
    (h2 : u < (k : ℚ) + 1) (h3 : u - (k : ℚ) = 1 / 2) (h4 : k % 2 = 0) :
    rne u = k := by
  have hfl : ⌊u⌋ = k := Int.floor_eq_iff.mpr ⟨h1, h2⟩
  rw [rne, hfl, if_neg (by linarith), if_neg (by linarith), if_pos h4]

theorem roundPos_eq {q : ℚ} (hq : 0 < q) {e : ℤ} (h1 : zpow2 e ≤ q)
    (h2 : q < zpow2 (e + 1)) :
    roundPos q = (rne (q / zpow2 (max (e - 52) (-1074))) : ℚ) *
      zpow2 (max (e - 52) (-1074)) := by
  rw [roundPos, dscale, qlog2_unique hq h1 h2]

theorem zpow2_neg_nat (n : ℕ) : zpow2 (-(n : ℤ)) = 1 / ((2 ^ n : ℕ) : ℚ) := by
  rw [zpow2, zpow_neg, zpow_natCast, one_div]
  norm_cast

/-- `parseFloat(MIN_ACCOUNT_BALANCE)` is exactly `1`. -/
theorem parseFloat_min_balance : parseFloat MIN_ACCOUNT_BALANCE = .fin 1 := by
  rw [show MIN_ACCOUNT_BALANCE = fixedString7 (10 ^ 7) from rfl, parseFloat_fixedString7]
  rw [show (((10 ^ 7 : ℕ) : ℚ) / 10 ^ 7 : ℚ) = 1 from by norm_num]
  refine roundDouble_fix ⟨1, 0, by norm_num, by norm_num, by rw [zpow2]; norm_num⟩ ?_
  rw [abs_one, show (1024 : ℤ) = ((1024 : ℕ) : ℤ) from rfl, zpow2_natCast]
  norm_num

/-- Binary64 addition rounds `2^53 + 1` back down to `2^53` (tie to even). -/
theorem roundDouble_two_pow53_succ :
    roundDouble (9007199254740993 : ℚ) = .fin 9007199254740992 := by
  have hq : (0 : ℚ) < 9007199254740993 := by norm_num
  have h1 : zpow2 53 ≤ (9007199254740993 : ℚ) := by
    rw [show (53 : ℤ) = ((53 : ℕ) : ℤ) from rfl, zpow2_natCast]
    norm_num
  have h2 : (9007199254740993 : ℚ) < zpow2 (53 + 1) := by
    rw [show (53 + 1 : ℤ) = ((54 : ℕ) : ℤ) from rfl, zpow2_natCast]
    norm_num
  have hrp : roundPos (9007199254740993 : ℚ) = 9007199254740992 := by
    rw [roundPos_eq hq h1 h2, show max ((53 : ℤ) - 52) (-1074) = 1 from by norm_num]
    have hu : (9007199254740993 : ℚ) / zpow2 1 = 9007199254740993 / 2 := by
      rw [show (1 : ℤ) = ((1 : ℕ) : ℤ) from rfl, zpow2_natCast]
      norm_num
    rw [hu]
    have h1a : ((4503599627370496 : ℤ) : ℚ) ≤ 9007199254740993 / 2 := by norm_num
    have h2a : (9007199254740993 / 2 : ℚ) < ((4503599627370496 : ℤ) : ℚ) + 1 := by
      norm_num
    have h3a : (9007199254740993 / 2 : ℚ) - ((4503599627370496 : ℤ) : ℚ) = 1 / 2 := by
      norm_num
    have h4a : (4503599627370496 : ℤ) % 2 = 0 := by norm_num
    rw [rne_eq_of_tie_even h1a h2a h3a h4a,
      show (1 : ℤ) = ((1 : ℕ) : ℤ) from rfl, zpow2_natCast]
    norm_num
  have hbound : ¬ zpow2 1024 ≤ roundPos (9007199254740993 : ℚ) := by
    rw [hrp, show (1024 : ℤ) = ((1024 : ℕ) : ℤ) from rfl, zpow2_natCast]
    norm_num
  rw [roundDouble, if_neg (by norm_num : (9007199254740993 : ℚ) ≠ 0), if_pos hq,
    if_neg hbound, hrp]

theorem jsAdd_fin (a b : ℚ) : jsAdd (.fin a) (.fin b) = roundDouble (a + b) := rfl

theorem detailsSequence_eval {N : ℕ} {q : ℚ}
    (h : jsAdd (roundDouble (N : ℚ)) (.fin 1) = .fin q) :
    detailsSequence N = String.mk (natChars q.num.toNat) := by
  rw [detailsSequence, h]

/-- `parseInt` precision loss: at sequence `2^53` the reported next sequence
is `2^53` again, not `2^53 + 1`. -/
theorem detailsSequence_at_two_pow53 :
    detailsSequence 9007199254740992 = "9007199254740992" := by
  have h53 : (9007199254740992 : ℕ) ≤ 2 ^ 53 := by norm_num
  have hadd : jsAdd (roundDouble ((9007199254740992 : ℕ) : ℚ)) (.fin 1) =
      .fin 9007199254740992 := by
    rw [roundDouble_natCast h53, jsAdd_fin,
      show (((9007199254740992 : ℕ) : ℚ) + 1 : ℚ) = 9007199254740993 from by norm_num]
    exact roundDouble_two_pow53_succ
  rw [detailsSequence_eval hadd]
  have hnum : (9007199254740992 : ℚ).num = 9007199254740992 := by norm_num
  rw [hnum]
  rfl

/-- `parseFloat` on the C9 example string. -/
theorem parseFloat_one_stroop_hundredth :
    parseFloat "0.00000001" = roundDouble (1 / 10 ^ 8 : ℚ) := by
  rw [show ("0.00000001" : String) =
      String.mk (['0'] ++ '.' :: ['0', '0', '0', '0', '0', '0', '0', '1']) from rfl,
    parseFloat_mk_fixed (by decide) (by decide) (by decide)]
  congr 1
  norm_num [show valBE ['0'] = 0 from rfl,
    show valBE ['0', '0', '0', '0', '0', '0', '0', '1'] = 1 from rfl,
    show (['0', '0', '0', '0', '0', '0', '0', '1'] : List Char).length = 8 from rfl]

/-- `10^-8` rounds to the binary64 value `6044629098073146·2^-79`. -/
theorem roundDouble_one_div_ten8 :
    roundDouble (1 / 10 ^ 8 : ℚ) = .fin (6044629098073146 * zpow2 (-79)) := by
  have hq : (0 : ℚ) < 1 / 10 ^ 8 := by norm_num
  have h1 : zpow2 (-27) ≤ (1 / 10 ^ 8 : ℚ) := by
    rw [show (-27 : ℤ) = -((27 : ℕ) : ℤ) from rfl, zpow2_neg_nat]
    norm_num
  have h2 : (1 / 10 ^ 8 : ℚ) < zpow2 (-27 + 1) := by
    rw [show (-27 + 1 : ℤ) = -((26 : ℕ) : ℤ) from rfl, zpow2_neg_nat]
    norm_num
  have hrp : roundPos (1 / 10 ^ 8 : ℚ) = 6044629098073146 * zpow2 (-79) := by
    rw [roundPos_eq hq h1 h2,
      show max ((-27 : ℤ) - 52) (-1074) = -79 from by norm_num]
    congr 1
    have hu : (1 / 10 ^ 8 : ℚ) / zpow2 (-79) = 604462909807314587353088 / 100000000 := by
      rw [show (-79 : ℤ) = -((79 : ℕ) : ℤ) from rfl, zpow2_neg_nat]
      norm_num
    rw [hu]
    have h1a : ((6044629098073145 : ℤ) : ℚ) ≤ 604462909807314587353088 / 100000000 := by
      norm_num
    have h2a : (604462909807314587353088 / 100000000 : ℚ) <
        ((6044629098073145 : ℤ) : ℚ) + 1 := by norm_num
    have h3a : (1 : ℚ) / 2 <
        604462909807314587353088 / 100000000 - ((6044629098073145 : ℤ) : ℚ) := by
      norm_num
    rw [rne_eq_of_gt h1a h2a h3a]
    norm_num
  have hbound : ¬ zpow2 1024 ≤ roundPos (1 / 10 ^ 8 : ℚ) := by
    rw [hrp, show (-79 : ℤ) = -((79 : ℕ) : ℤ) from rfl, zpow2_neg_nat,
      show (1024 : ℤ) = ((1024 : ℕ) : ℤ) from rfl, zpow2_natCast]
    norm_num
  rw [roundDouble, if_neg (by norm_num : (1 / 10 ^ 8 : ℚ) ≠ 0), if_pos hq,
    if_neg hbound, hrp]

theorem formatAmount_one_stroop_hundredth :
    formatAmount "0.00000001" = "0.0000000" := by
  rw [formatAmount, parseFloat_one_stroop_hundredth, roundDouble_one_div_ten8]
  have hy : (0 : ℚ) < 6044629098073146 * zpow2 (-79) :=
    mul_pos (by norm_num) (zpow2_pos _)
  have hy21 : (6044629098073146 * zpow2 (-79) : ℚ) < 10 ^ 21 := by
    rw [show (-79 : ℤ) = -((79 : ℕ) : ℤ) from rfl, zpow2_neg_nat]
    norm_num
  rw [jsToFixed7_fin_small (le_of_lt hy) hy21]
  have hfl : ⌊(6044629098073146 * zpow2 (-79) : ℚ) * 10 ^ 7 + 1 / 2⌋ = 0 := by
    rw [Int.floor_eq_iff]
    constructor
    · rw [show (-79 : ℤ) = -((79 : ℕ) : ℤ) from rfl, zpow2_neg_nat]
      norm_num
    · rw [show (-79 : ℤ) = -((79 : ℕ) : ℤ) from rfl, zpow2_neg_nat]
      norm_num
  rw [hfl]
  rfl

theorem validateAmount_one_stroop_hundredth :
    validateAmount "0.00000001" OpType.payment = true := by
  simp only [validateAmount]
  rw [parseFloat_one_stroop_hundredth, roundDouble_one_div_ten8]
  have hy : (0 : ℚ) < 6044629098073146 * zpow2 (-79) :=
    mul_pos (by norm_num) (zpow2_pos _)
  rw [show jsIsNaN (JsNum.fin (6044629098073146 * zpow2 (-79))) = false from rfl,
    show jsLe (JsNum.fin (6044629098073146 * zpow2 (-79))) (JsNum.fin 0) =
      decide ((6044629098073146 * zpow2 (-79) : ℚ) ≤ 0) from rfl,
    decide_eq_false (not_le.mpr hy)]
  simp

/-- `isValidStellarAddress` from the source (lines 61-68): `true` iff
`Keypair.fromPublicKey` does not throw, i.e. iff the strkey decodes. -/
def isValidStellarAddress (address : String) : Bool :=
  (decodePublicKey address).isSome

/-- The spec's amount rule, stated from its words (§4.2): "valid iff it
parses to a finite number > 0. For create-account operations, additionally
must be ≥ a minimum reserve balance constant" (1.0000000 XLM). -/
def specAmountValid (amount : String) (operationType : OpType) : Bool :=
  match parseFloat amount with
  | .fin x => decide (0 < x) &&
      (!(decide (operationType = OpType.createAccount)) || decide (1 ≤ x))
  | _ => false

/-- The ID-memo case accepts exactly the in-range BigInt values. -/
theorem memoIdCase_iff {v : String} {z : ℤ} (hz : jsBigInt v = some z) :
    (∃ m, memoIdCase v = .ok m) ↔ (0 ≤ z ∧ z ≤ 18446744073709551615) := by
  rw [memoIdCase, hz]
  show (∃ m, (if z < 0 ∨ 18446744073709551615 < z then
      (Except.error "ID memo must be between 0 and 18446744073709551615" :
        Except String Memo)
    else Except.ok (Memo.id v)) = Except.ok m) ↔ 0 ≤ z ∧ z ≤ 18446744073709551615
  by_cases h : z < 0 ∨ 18446744073709551615 < z
  · rw [if_pos h]
    constructor
    · rintro ⟨m, hm⟩
      exact Except.noConfusion hm
    · intro hc
      rcases h with h | h <;> omega
  · rw [if_neg h]
    push_neg at h
    exact ⟨fun _ => h, fun _ => ⟨_, rfl⟩⟩

theorem jsBigInt_zero : jsBigInt "0" = some 0 := rfl

theorem jsBigInt_u64max : jsBigInt "18446744073709551615" = some 18446744073709551615 := rfl

theorem jsBigInt_neg_one : jsBigInt "-1" = some (-1) := rfl

theorem jsBigInt_u64max_succ :
    jsBigInt "18446744073709551616" = some 18446744073709551616 := rfl

/-! ### The claims -/

/-- C1: the assembled transaction's `details.sequence` equals the decimal
string of `N + 1` only for sequence numbers below `2^53`; at `N = 2^53`
(a value an int64 sequence column can reach) `parseInt` precision loss and
binary64 tie-to-even addition report `N` itself instead of `N + 1`, so the
claim fails for "every value of N the network can return". -/
theorem claim_C1 :
    (∀ N : ℕ, N < 2 ^ 53 → detailsSequence N = String.mk (natChars (N + 1))) ∧
      detailsSequence 9007199254740992 ≠ "9007199254740993" := by
  constructor
  · intro N hN
    have hadd : jsAdd (roundDouble (N : ℚ)) (.fin 1) = .fin ((N + 1 : ℕ) : ℚ) := by
      rw [roundDouble_natCast (le_of_lt hN), jsAdd_fin,
        show ((N : ℚ) + 1) = ((N + 1 : ℕ) : ℚ) from by push_cast; ring]
      exact roundDouble_natCast (by omega)
    rw [detailsSequence_eval hadd]
    congr 1
  · rw [detailsSequence_at_two_pow53]
    decide

/-- Witness for C1 at a concrete sequence number. -/
theorem claim_C1_witness : detailsSequence 41 = String.mk (natChars 42) :=
  claim_C1.1 41 (by norm_num)

/-- C2 (corrected): the amount loop accepts a string iff it parses to a
finite value `> 0` that meets the create-account minimum of `1` — or to
`+∞`, which the original "finite" claim excludes but the code accepts
(`parseFloat("Infinity")` is neither `NaN` nor `≤ 0` nor below the
minimum). -/
theorem claim_C2 (s : String) (op : OpType) :
    validateAmount s op = true ↔
      (parseFloat s = .posInf ∨
        ∃ x : ℚ, parseFloat s = .fin x ∧ 0 < x ∧
          (op = OpType.createAccount → 1 ≤ x)) := by
  simp only [validateAmount]
  cases hp : parseFloat s with
  | nan =>
    rw [show jsIsNaN JsNum.nan = true from rfl]
    simp
  | negInf =>
    rw [show jsIsNaN JsNum.negInf = false from rfl,
      show jsLe JsNum.negInf (JsNum.fin 0) = true from rfl]
    simp
  | posInf =>
    rw [show jsIsNaN JsNum.posInf = false from rfl,
      show jsLe JsNum.posInf (JsNum.fin 0) = false from rfl,
      parseFloat_min_balance,
      show jsLt JsNum.posInf (JsNum.fin 1) = false from rfl]
    simp
  | fin x =>
    rw [show jsIsNaN (JsNum.fin x) = false from rfl,
      show jsLe (JsNum.fin x) (JsNum.fin 0) = decide (x ≤ 0) from rfl,
      parseFloat_min_balance,
      show jsLt (JsNum.fin x) (JsNum.fin 1) = decide (x < 1) from rfl,
      Bool.false_or]
    by_cases hx0 : x ≤ 0
    · rw [decide_eq_true hx0]
      constructor
      · intro h
        rw [if_pos rfl] at h
        exact absurd h (by simp)
      · rintro (h | ⟨y, hy, hy0, _⟩)
        · exact JsNum.noConfusion h
        · have hxy : x = y := by injection hy
          subst hxy
          exact absurd hy0 (not_lt.mpr hx0)
    · rw [decide_eq_false hx0, if_neg (by simp)]
      push_neg at hx0
      by_cases hop : op = OpType.createAccount
      · subst hop
        rw [decide_eq_true rfl, Bool.true_and]
        by_cases hx1 : x < 1
        · rw [decide_eq_true hx1, if_pos rfl]
          constructor
          · intro h
            exact absurd h (by simp)
          · rintro (h | ⟨y, hy, hy0, hmin⟩)
            · exact JsNum.noConfusion h
            · have hxy : x = y := by injection hy
              subst hxy
              exact absurd (hmin rfl) (not_le.mpr hx1)
        · rw [decide_eq_false hx1, if_neg (by simp)]
          push_neg at hx1
          exact ⟨fun _ => Or.inr ⟨x, rfl, hx0, fun _ => hx1⟩, fun _ => rfl⟩
      · rw [decide_eq_false hop, Bool.false_and, if_neg (by simp)]
        exact ⟨fun _ => Or.inr ⟨x, rfl, hx0, fun hc => absurd hc hop⟩, fun _ => rfl⟩

/-- C2, counterexample to the original claim: `"Infinity"` is accepted by
the code's validator but rejected by the spec's rule (it does not parse to a
finite number). -/
theorem claim_C2_counterexample :
    validateAmount "Infinity" OpType.payment = true ∧
      specAmountValid "Infinity" OpType.payment = false := by
  constructor
  · simp only [validateAmount]
    rw [parseFloat_infinity,
      show jsIsNaN JsNum.posInf = false from rfl,
      show jsLe JsNum.posInf (JsNum.fin 0) = false from rfl,
      parseFloat_min_balance,
      show jsLt JsNum.posInf (JsNum.fin 1) = false from rfl]
    simp
  · rw [specAmountValid, parseFloat_infinity]

/-- C3: with a network reporting existence faithfully (success iff the
account exists, 404 iff it does not), the create-account operation is chosen
iff the destination does not exist; otherwise payment is chosen. -/
theorem claim_C3 (dstExists : Bool) :
    chooseOperationType (checkDestinationAccountExists
        (if dstExists then LoadOutcome.success else LoadOutcome.failure (some 404))) =
      OpType.createAccount ↔ dstExists = false := by
  cases dstExists <;> decide

/-- C4: the TEXT memo case succeeds iff the UTF-8 byte length is at most 28,
and the HASH and RETURN cases succeed iff the value is exactly 64
hexadecimal characters. -/
theorem claim_C4 (v : String) :
    ((∃ m, memoTextCase v = .ok m) ↔ getByteLength v ≤ 28) ∧
      ((∃ m, memoHashCase v = .ok m) ↔
        (v.data.length = 64 ∧ ∀ c ∈ v.data, isHexC c = true)) ∧
      ((∃ m, memoReturnCase v = .ok m) ↔
        (v.data.length = 64 ∧ ∀ c ∈ v.data, isHexC c = true)) := by
  have hiff : isValidHex v 64 = true ↔
      (v.data.length = 64 ∧ ∀ c ∈ v.data, isHexC c = true) := by
    rw [isValidHex]
    simp only [Bool.and_eq_true, decide_eq_true_eq, List.all_eq_true]
    constructor
    · rintro ⟨⟨_, hall⟩, hlen⟩
      exact ⟨hlen, hall⟩
    · rintro ⟨hlen, hall⟩
      refine ⟨⟨?_, hall⟩, hlen⟩
      intro hnil
      rw [hnil] at hlen
      simp at hlen
  refine ⟨?_, ?_, ?_⟩
  · rw [memoTextCase]
    by_cases h : getByteLength v > 28
    · rw [if_pos h]
      constructor
      · rintro ⟨m, hm⟩
        exact Except.noConfusion hm
      · intro hle
        omega
    · rw [if_neg h]
      exact ⟨fun _ => by omega, fun _ => ⟨_, rfl⟩⟩
  · rw [memoHashCase]
    by_cases h : isValidHex v 64 = true
    · rw [if_neg (not_not_intro h)]
      exact ⟨fun _ => hiff.mp h, fun _ => ⟨_, rfl⟩⟩
    · rw [if_pos h]
      constructor
      · rintro ⟨m, hm⟩
        exact Except.noConfusion hm
      · intro hc
        exact absurd (hiff.mpr hc) h
  · rw [memoReturnCase]
    by_cases h : isValidHex v 64 = true
    · rw [if_neg (not_not_intro h)]
      exact ⟨fun _ => hiff.mp h, fun _ => ⟨_, rfl⟩⟩
    · rw [if_pos h]
      constructor
      · rintro ⟨m, hm⟩
        exact Except.noConfusion hm
      · intro hc
        exact absurd (hiff.mpr hc) h

/-- C5: the ID memo case accepts a value iff its integer reading lies in
`[0, 2^64 - 1]`; the boundary inputs `"0"` and `"18446744073709551615"` are
accepted while `"-1"` and `"18446744073709551616"` raise an error. -/
theorem claim_C5 :
    (∀ (v : String) (z : ℤ), jsBigInt v = some z →
      ((∃ m, memoIdCase v = .ok m) ↔ (0 ≤ z ∧ z ≤ 18446744073709551615))) ∧
      (∃ m, memoIdCase "0" = .ok m) ∧
      (∃ m, memoIdCase "18446744073709551615" = .ok m) ∧
      (∀ m, memoIdCase "-1" ≠ .ok m) ∧
      (∀ m, memoIdCase "18446744073709551616" ≠ .ok m) := by
  refine ⟨fun v z hz => memoIdCase_iff hz, ?_, ?_, ?_, ?_⟩
  · exact (memoIdCase_iff jsBigInt_zero).mpr ⟨by norm_num, by norm_num⟩
  · exact (memoIdCase_iff jsBigInt_u64max).mpr ⟨by norm_num, by norm_num⟩
  · intro m hm
    have := (memoIdCase_iff jsBigInt_neg_one).mp ⟨m, hm⟩
    omega
  · intro m hm
    have := (memoIdCase_iff jsBigInt_u64max_succ).mp ⟨m, hm⟩
    omega

/-- Witness for C5 at a concrete in-range value. -/
theorem claim_C5_witness :
    (∃ m, memoIdCase "7" = .ok m) ↔ (0 ≤ (7 : ℤ) ∧ (7 : ℤ) ≤ 18446744073709551615) :=
  claim_C5.1 "7" 7 rfl

/-- C6: the address validator (a Boolean-returning function) accepts exactly
the canonical strkey encodings of 32-byte public keys: every other string —
empty, wrong length, wrong checksum — yields `false`. -/
theorem claim_C6 (s : String) :
    isValidStellarAddress s = true ↔
      ∃ key : List ℕ, key.length = 32 ∧ (∀ b ∈ key, b < 256) ∧
        s = encodePublicKey key := by
  rw [isValidStellarAddress]
  constructor
  · intro h
    obtain ⟨key, hk⟩ := Option.isSome_iff_exists.mp h
    obtain ⟨h1, h2, h3⟩ := encode_of_decodePublicKey hk
    exact ⟨key, h1, h2, h3.symm⟩
  · rintro ⟨key, h1, h2, rfl⟩
    rw [decodePublicKey_encode h1 h2]
    rfl

/-- C7: `formatAmount` is idempotent on every amount string the payment
loop accepts. -/
theorem claim_C7 (s : String) (h : validateAmount s OpType.payment = true) :
    formatAmount (formatAmount s) = formatAmount s := by
  rcases validateAmount_payment_cases h with hinf | ⟨x, hx, hxpos⟩
  · have hfs : formatAmount s = "Infinity" := by
      rw [formatAmount, hinf]
      rfl
    rw [hfs, formatAmount, parseFloat_infinity]
    rfl
  · obtain ⟨hrepr, hlt⟩ := parseFloat_fin_props hx
    have hfs : formatAmount s = jsToFixed7 (JsNum.fin x) := by
      rw [formatAmount, hx]
    by_cases h21 : x < 10 ^ 21
    · rw [hfs, jsToFixed7_fin_small (le_of_lt hxpos) h21]
      obtain ⟨hw1, hw2⟩ := toFixed_floor_window hxpos
      exact formatAmount_fixedString7 hrepr hw1 hw2 hxpos h21
    · push_neg at h21
      rw [hfs, jsToFixed7_fin_big h21, formatAmount,
        parseFloat_jsBigToString hrepr hlt h21, jsToFixed7_fin_big h21]

/-- Witness for C7 at a concrete accepted string. -/
theorem claim_C7_witness :
    formatAmount (formatAmount "0.00000001") = formatAmount "0.00000001" :=
  claim_C7 "0.00000001" validateAmount_one_stroop_hundredth

/-- C8: any load failure other than HTTP 404 makes
`checkDestinationAccountExists` return `true`, so the destination is treated
as existing and the payment operation is chosen. -/
theorem claim_C8 (st : Option ℕ) (h : st ≠ some 404) :
    checkDestinationAccountExists (.failure st) = true ∧
      chooseOperationType (checkDestinationAccountExists (.failure st)) =
        OpType.payment := by
  have hc : checkDestinationAccountExists (.failure st) = true := by
    show (if st = some 404 then false else true) = true
    rw [if_neg h]
  refine ⟨hc, ?_⟩
  rw [hc]
  rfl

/-- Witness for C8 at a transport failure without an HTTP response. -/
theorem claim_C8_witness :
    checkDestinationAccountExists (.failure none) = true ∧
      chooseOperationType (checkDestinationAccountExists (.failure none)) =
        OpType.payment :=
  claim_C8 none (by decide)

/-- C9: the string `"0.00000001"` passes the payment amount validation
(it parses to a positive finite value) yet `formatAmount` renders it as
`"0.0000000"`, a zero amount. -/
theorem claim_C9 :
    validateAmount "0.00000001" OpType.payment = true ∧
      (∃ y : ℚ, parseFloat "0.00000001" = .fin y ∧ 0 < y) ∧
      formatAmount "0.00000001" = "0.0000000" := by
  refine ⟨validateAmount_one_stroop_hundredth, ?_, formatAmount_one_stroop_hundredth⟩
  exact ⟨6044629098073146 * zpow2 (-79),
    parseFloat_one_stroop_hundredth.trans roundDouble_one_div_ten8,
    mul_pos (by norm_num) (zpow2_pos _)⟩

/-- C10: the shape-inference variant attaches no memo for the empty string,
an ID memo iff the input is all decimal digits with at most 19 characters,
and a TEXT memo (with no 28-byte check) for every other non-empty string. -/
theorem claim_C10 (v : String) :
    inferMemo v =
      (if v = "" then MemoChoice.none
       else if (v.data ≠ [] ∧ ∀ c ∈ v.data, isDigitC c = true) ∧ v.data.length ≤ 19
       then MemoChoice.id v
       else MemoChoice.text v) := by
  have hb : (regexAllDigits v && decide (v.data.length ≤ 19)) = true ↔
      ((v.data ≠ [] ∧ ∀ c ∈ v.data, isDigitC c = true) ∧ v.data.length ≤ 19) := by
    rw [regexAllDigits]
    simp only [Bool.and_eq_true, decide_eq_true_eq, List.all_eq_true]
  rw [inferMemo]
  by_cases h0 : v = ""
  · rw [if_pos h0, if_pos h0]
  · rw [if_neg h0, if_neg h0]
    by_cases hcond : (regexAllDigits v && decide (v.data.length ≤ 19)) = true
    · rw [if_pos hcond, if_pos (hb.mp hcond)]
    · rw [if_neg hcond, if_neg (fun hc => hcond (hb.mpr hc))]

end StellarCLI

